import Mathlib

/-!
Backup lifecycle of the single-document notes editor.

A shallow embedding of `main.go`: the two HTTP handlers (`/` and `/backup/`) and
`cleanupOldBackups`, over an explicit file-system state.

Conventions of the embedding

* A Go string is a byte sequence.  It is embedded as a `List Char`, one character per byte;
  `len`, slicing, `strings.HasSuffix`, `strings.Contains` and `<` act position by position.
* An instant is an `Int`: nanoseconds since the Unix epoch.  All clock readings of one request
  are taken at the same instant `now`, and a file written by the request gets `now` as its
  modification time.
* The local time zone is a function from Unix seconds to the UTC offset (in seconds) in force
  at that second, as `time.Local` looks it up.
* A run-time panic (slice bounds out of range) is the result `none` of a handler.
-/

namespace NotesEditor

/-! ## Strings -/

/-- Go `strings.HasSuffix`: `len(s) >= len(suffix) && s[len(s)-len(suffix):] == suffix`. -/
def HasSuffix (s suffix : List Char) : Bool :=
  decide (suffix.length ≤ s.length) && (s.drop (s.length - suffix.length) == suffix)

/-- Go `strings.Contains`: some position of `s` starts an occurrence of `substr`. -/
def Contains : List Char → List Char → Bool
  | [], substr => substr.isEmpty
  | c :: cs, substr => substr.isPrefixOf (c :: cs) || Contains cs substr

/-- Go slice expression `s[lo:hi]`; `none` is the run-time panic
"slice bounds out of range". -/
def slice (s : List Char) (lo hi : Nat) : Option (List Char) :=
  if lo ≤ hi ∧ hi ≤ s.length then some ((s.take hi).drop lo) else none

/-- Go string comparison `a < b`: lexicographic on bytes. -/
def strLt : List Char → List Char → Bool
  | [], [] => false
  | [], _ :: _ => true
  | _ :: _, [] => false
  | a :: as, b :: bs => decide (a.toNat < b.toNat) || (decide (a.toNat = b.toNat) && strLt as bs)

/-- Go `filepath.Base` (Unix): the last element of the path, trailing slashes removed;
`"."` for the empty path and `"/"` for a path of slashes only. -/
def Base (path : List Char) : List Char :=
  if path = [] then ['.']
  else
    let stripped := (path.reverse.dropWhile (fun c => c == '/')).reverse
    let last := (stripped.reverse.takeWhile (fun c => c != '/')).reverse
    if last = [] then ['/'] else last

/-! ## Time and its formats -/

/-- The local time zone: UTC offset in seconds at a given Unix second. -/
abbrev Zone := Int → Int

/-- Nanoseconds of one hour: the `1*time.Hour` passed to `cleanupOldBackups`. -/
def hour : Int := 3600000000000

/-- Unix seconds of an instant given in nanoseconds. -/
def unixSec (t : Int) : Int := t / 1000000000

/-- The seconds on the local wall clock at instant `t`. -/
def localSec (zone : Zone) (t : Int) : Int := unixSec t + zone (unixSec t)

/-- The year that begins on 1 March and the day of that year (0 is 1 March) of a day number
counted from 1970-01-01: cycles of 400 years (146097 days), of 100 years (36524 days, the
fourth a day longer), of 4 years (1461 days) and of one year (365 days, the fourth a day
longer), counted from 0000-03-01. -/
def marchYearDay (days : Int) : Int × Int :=
  let z := days + 719468
  let era := z / 146097
  let doe := z % 146097
  let cent := min (doe / 36524) 3
  let doc := doe - cent * 36524
  let quad := doc / 1461
  let doq := doc % 1461
  let yr := min (doq / 365) 3
  (era * 400 + cent * 100 + quad * 4 + yr, doq - yr * 365)

/-- Proleptic Gregorian date (year, month, day) of a day number counted from 1970-01-01. -/
def civilFromDays (days : Int) : Int × Int × Int :=
  let y := (marchYearDay days).1
  let doy := (marchYearDay days).2
  let mp := (5 * doy + 2) / 153
  let d := doy - (153 * mp + 2) / 5 + 1
  let m := if mp < 10 then mp + 3 else mp - 9
  (if m ≤ 2 then y + 1 else y, m, d)

/-- Day number counted from 1970-01-01 of a proleptic Gregorian date. -/
def daysFromCivil (y m d : Int) : Int :=
  let y1 := if m ≤ 2 then y - 1 else y
  let era := y1 / 400
  let yoe := y1 % 400
  let mp := if m > 2 then m - 3 else m + 9
  let doy := (153 * mp + 2) / 5 + d - 1
  let doe := yoe * 365 + yoe / 4 - yoe / 100 + doy
  era * 146097 + doe - 719468

/-- The calendar fields of a time. -/
structure Civil where
  year : Int
  month : Int
  day : Int
  hh : Int
  mm : Int
  ss : Int
deriving DecidableEq, Repr

/-- Calendar fields of a count of seconds since 1970-01-01 00:00:00. -/
def civilOf (secs : Int) : Civil :=
  let date := civilFromDays (secs / 86400)
  let sod := secs % 86400
  { year := date.1, month := date.2.1, day := date.2.2,
    hh := sod / 3600, mm := sod % 3600 / 60, ss := sod % 60 }

/-- The decimal digit character of `n % 10`. -/
def digit (n : Int) : Char := Char.ofNat (48 + (n % 10).toNat)

/-- Two decimal digits, zero padded. -/
def pad2 (n : Int) : List Char := [digit (n / 10), digit n]

/-- Four decimal digits, zero padded. -/
def pad4 (n : Int) : List Char := [digit (n / 1000), digit (n / 100), digit (n / 10), digit n]

/-- Go `appendInt(b, x, 4)`, the year field `2006`: a minus sign for a negative number, four
zero-padded digits below 10000 and all the digits from there on. -/
def appendInt4 (x : Int) : List Char :=
  (if x < 0 then ['-'] else []) ++
    (if x.natAbs < 10000 then pad4 x.natAbs else Nat.toDigits 10 x.natAbs)

/-- Go `appendInt(b, x, 0)`, the day field `2`: the decimal digits without padding. -/
def appendInt0 (x : Int) : List Char :=
  (if x < 0 then ['-'] else []) ++ Nat.toDigits 10 x.natAbs

/-- Layout `20060102_150405`. -/
def formatStamp (c : Civil) : List Char :=
  appendInt4 c.year ++ pad2 c.month ++ pad2 c.day ++ ['_'] ++ pad2 c.hh ++ pad2 c.mm ++ pad2 c.ss

/-- Layout `2006-01-02 15:04:05`. -/
def formatModTime (c : Civil) : List Char :=
  appendInt4 c.year ++ ['-'] ++ pad2 c.month ++ ['-'] ++ pad2 c.day ++ [' '] ++
    pad2 c.hh ++ [':'] ++ pad2 c.mm ++ [':'] ++ pad2 c.ss

/-- Go month names (`time.Month.String`). -/
def longMonthNames : List String :=
  ["January", "February", "March", "April", "May", "June", "July", "August", "September",
    "October", "November", "December"]

/-- Layout element `January`. -/
def longMonth (m : Int) : List Char := (longMonthNames.getD (m - 1).toNat "").toList

/-- Layout element `Jan`: the first three letters of the month name. -/
def shortMonth (m : Int) : List Char := (longMonth m).take 3

/-- Layout `Jan 2, 2006 at 15:04:05`, the label of the listing. -/
def formatShortLabel (c : Civil) : List Char :=
  shortMonth c.month ++ [' '] ++ appendInt0 c.day ++ [',', ' '] ++ appendInt4 c.year ++
    " at ".toList ++ pad2 c.hh ++ [':'] ++ pad2 c.mm ++ [':'] ++ pad2 c.ss

/-- Layout `January 2, 2006 at 15:04:05`, the label of the backup viewer. -/
def formatLongLabel (c : Civil) : List Char :=
  longMonth c.month ++ [' '] ++ appendInt0 c.day ++ [',', ' '] ++ appendInt4 c.year ++
    " at ".toList ++ pad2 c.hh ++ [':'] ++ pad2 c.mm ++ [':'] ++ pad2 c.ss

/-- ASCII decimal digit test (`isDigit` of package time). -/
def isDigit (c : Char) : Bool := decide (48 ≤ c.toNat) && decide (c.toNat ≤ 57)

/-- Value of a decimal digit character. -/
def digitVal (c : Char) : Int := (c.toNat : Int) - 48

/-- Leap years of the proleptic Gregorian calendar. -/
def isLeap (year : Int) : Bool :=
  decide (year % 4 = 0) && (decide (year % 100 ≠ 0) || decide (year % 400 = 0))

/-- Go `daysIn(month, year)`. -/
def daysIn (month year : Int) : Int :=
  if month = 2 then (if isLeap year then 29 else 28)
  else if month = 4 ∨ month = 6 ∨ month = 9 ∨ month = 11 then 30 else 31

/-- Go `time.Parse("20060102_150405", value)` for a value of 15 bytes, which is what both
handlers pass (`dateStr + "_" + timeStr` with an 8-byte and a 6-byte slice): four year digits,
two month digits, two day digits, the literal underscore and two digits each for hour, minute
and second, every field in range.  The result is the parsed instant in Unix seconds (UTC);
`none` is a parse error. -/
def timeParse (value : List Char) : Option Int :=
  match value with
  | [y1, y2, y3, y4, m1, m2, d1, d2, u, h1, h2, n1, n2, s1, s2] =>
    if [y1, y2, y3, y4, m1, m2, d1, d2, h1, h2, n1, n2, s1, s2].all isDigit && u == '_' then
      let year := digitVal y1 * 1000 + digitVal y2 * 100 + digitVal y3 * 10 + digitVal y4
      let month := digitVal m1 * 10 + digitVal m2
      let day := digitVal d1 * 10 + digitVal d2
      let hh := digitVal h1 * 10 + digitVal h2
      let mm := digitVal n1 * 10 + digitVal n2
      let ss := digitVal s1 * 10 + digitVal s2
      if month < 1 ∨ 12 < month then none
      else if 24 ≤ hh then none
      else if 60 ≤ mm then none
      else if 60 ≤ ss then none
      else if day < 1 ∨ daysIn month year < day then none
      else some (daysFromCivil year month day * 86400 + hh * 3600 + mm * 60 + ss)
    else none
  | _ => none

/-! ## File system state -/

/-- An entry of the backup directory, as `ioutil.ReadDir` reports it, with the bytes of the
file. -/
structure FileInfo where
  name : List Char
  isDir : Bool
  modTime : Int
  content : List Char
deriving DecidableEq, Repr

/-- The file `notes.txt`. -/
structure Document where
  content : List Char
  modTime : Int
deriving DecidableEq, Repr

/-- The part of the file system the server works on: `notesFile` (absent: `none`) and the
entries of `backupDir` (directory absent: `none`). -/
structure FS where
  notes : Option Document
  backups : Option (List FileInfo)
deriving DecidableEq, Repr

/-- Which file operations of a request fail for a reason outside the modelled state
(permissions, full disk, I/O error).  One flag per call site; `remove` is indexed by the
name of the entry to delete. -/
structure Faults where
  statNotes : Bool
  readNotes : Bool
  mkdirBackups : Bool
  writeBackup : Bool
  readDir : Bool
  remove : List Char → Bool
  writeNotes : Bool
  statNotesAfter : Bool
  statBackup : Bool
  readBackup : Bool

/-- Every file operation succeeds unless the state itself forbids it. -/
def noFaults : Faults :=
  { statNotes := false, readNotes := false, mkdirBackups := false, writeBackup := false,
    readDir := false, remove := fun _ => false, writeNotes := false, statNotesAfter := false,
    statBackup := false, readBackup := false }

/-- Result of `os.Stat` as far as the handlers look at it. -/
inductive StatResult where
  | ok (modTime : Int)
  | notExist
  | otherError
deriving DecidableEq, Repr

/-- The check `os.IsNotExist(err)` on a stat result. -/
def StatResult.isNotExist : StatResult → Bool
  | .notExist => true
  | _ => false

/-- Call `os.Stat(notesFile)`. -/
def statNotes (fails : Bool) (fs : FS) : StatResult :=
  if fails then .otherError
  else match fs.notes with
    | some d => .ok d.modTime
    | none => .notExist

/-- Call `ioutil.ReadFile(notesFile)`; `none` is an error. -/
def readNotes (fails : Bool) (fs : FS) : Option (List Char) :=
  if fails then none else fs.notes.map Document.content

/-- Call `ioutil.WriteFile(notesFile, content, 0644)`. -/
def writeNotes (fails : Bool) (now : Int) (content : List Char) (fs : FS) : FS :=
  if fails then fs else { fs with notes := some { content := content, modTime := now } }

/-- Call `os.MkdirAll(backupDir, 0755)`. -/
def mkdirAllBackups (fails : Bool) (fs : FS) : FS :=
  if fails then fs
  else match fs.backups with
    | none => { fs with backups := some [] }
    | some _ => fs

/-- Call `ioutil.WriteFile(filepath.Join(backupDir, name), content, 0644)`: fails without the
directory and on a name that is a directory; otherwise creates the file or replaces it. -/
def writeBackup (fails : Bool) (now : Int) (name content : List Char) (fs : FS) : FS :=
  if fails then fs
  else match fs.backups with
    | none => fs
    | some es =>
      if es.any (fun e => e.name == name && e.isDir) then fs
      else { fs with backups := some (es.filter (fun e => e.name != name) ++
              [{ name := name, isDir := false, modTime := now, content := content }]) }

/-- Order of `ioutil.ReadDir`: by file name. -/
def nameLe (a b : FileInfo) : Prop := strLt b.name a.name = false

instance : DecidableRel nameLe :=
  fun a b => inferInstanceAs (Decidable (strLt b.name a.name = false))

/-- The entries sorted by file name. -/
def sortByName (es : List FileInfo) : List FileInfo := es.insertionSort nameLe

/-- Call `ioutil.ReadDir(backupDir)`: the entries sorted by file name; `none` is an error. -/
def readDir (fails : Bool) (fs : FS) : Option (List FileInfo) :=
  if fails then none else fs.backups.map sortByName

/-- Call `os.Remove(filepath.Join(backupDir, name))`. -/
def removeBackup (fails : Bool) (name : List Char) (fs : FS) : FS :=
  if fails then fs
  else { fs with backups := fs.backups.map (fun es => es.filter (fun e => e.name != name)) }

/-- The entry of `backupDir` that the path `filepath.Join(backupDir, name)` names. -/
def findBackup (name : List Char) (fs : FS) : Option FileInfo :=
  match fs.backups with
  | none => none
  | some es => es.find? (fun e => e.name == name)

/-- Call `os.Stat(filepath.Join(backupDir, name))`. -/
def statBackup (fails : Bool) (name : List Char) (fs : FS) : StatResult :=
  if fails then .otherError
  else match findBackup name fs with
    | some e => .ok e.modTime
    | none => .notExist

/-- Call `ioutil.ReadFile(filepath.Join(backupDir, name))`; `none` is an error. -/
def readBackup (fails : Bool) (name : List Char) (fs : FS) : Option (List Char) :=
  if fails then none
  else match findBackup name fs with
    | some e => if e.isDir then none else some e.content
    | none => none

/-! ## The program -/

/-- Function `cleanupOldBackups(backupDir, maxAge)`: lists the directory and removes every
non-directory entry whose modification time is before `now - maxAge`. -/
def cleanupOldBackups (fl : Faults) (now maxAge : Int) (fs : FS) : FS :=
  match readDir fl.readDir fs with
  | none => fs
  | some files =>
    let cutoffTime := now - maxAge
    files.foldl
      (fun acc file =>
        if !file.isDir && decide (file.modTime < cutoffTime) then
          removeBackup (fl.remove file.name) file.name acc
        else acc)
      fs

/-- The backup file name `fmt.Sprintf("notes_%s.bak", timestamp)` with
`timestamp := time.Now().Format("20060102_150405")`. -/
def backupName (zone : Zone) (now : Int) : List Char :=
  "notes_".toList ++ formatStamp (civilOf (localSec zone now)) ++ ".bak".toList

/-- An `<option value="%s">%s</option>` element of the backup dropdown. -/
structure BackupOption where
  value : List Char
  label : List Char
deriving DecidableEq, Repr

/-- What a handler writes.  `text` is a plain body with its status code; the two pages are
sent with status 200. The error text that Go appends to the two 500 messages is left out. -/
inductive Response where
  | text (status : Nat) (body : List Char)
  | redirect (status : Nat) (location : List Char)
  | editorPage (content lastModTime : List Char) (backupCount : Nat)
      (backupFiles : List BackupOption)
  | viewerPage (displayDate content : List Char)
deriving DecidableEq, Repr

/-- HTTP status code of a response. -/
def Response.status : Response → Nat
  | .text s _ => s
  | .redirect s _ => s
  | .editorPage _ _ _ _ => 200
  | .viewerPage _ _ => 200

/-- The `dateStr + "_" + timeStr` of both handlers: `name[6:14] + "_" + name[15:21]`;
`none` when one of the two slices is out of range. -/
def stampOfName (name : List Char) : Option (List Char) :=
  match slice name 6 14, slice name 15 21 with
  | some dateStr, some timeStr => some (dateStr ++ ['_'] ++ timeStr)
  | _, _ => none

/-- The `displayTime` of one dropdown entry (lines 119-136). -/
def listLabel (name : List Char) : Option (List Char) :=
  if name.length > 11 then
    match stampOfName name with
    | none => none
    | some v =>
      match timeParse v with
      | some t => some (formatShortLabel (civilOf t))
      | none => some name
  else some name

/-- The `displayDate` of the backup viewer (lines 297-306). -/
def viewerLabel (backupFileName : List Char) : Option (List Char) :=
  if backupFileName.length > 11 then
    match stampOfName backupFileName with
    | none => none
    | some v =>
      match timeParse v with
      | some t => some (formatLongLabel (civilOf t))
      | none => some backupFileName
  else some backupFileName

/-- The loop of lines 116-138 over the entries in the order it visits them (last entry of
the listing first): one option per non-directory entry whose name ends in `.bak`. -/
def backupOptions : List FileInfo → Option (List BackupOption)
  | [] => some []
  | f :: rest =>
    if !f.isDir && HasSuffix f.name ".bak".toList then
      match listLabel f.name with
      | none => none
      | some displayTime =>
        (backupOptions rest).map (fun os => { value := f.name, label := displayTime } :: os)
    else backupOptions rest

/-- The handler of `/` for a POST request (lines 45-84) with form value `content`; `xhr` says
whether the header `X-Requested-With` is `XMLHttpRequest`.  The `os.MkdirAll` of the directory
of `notesFile` is part of the success or failure of the write of `notesFile`. -/
def rootPost (zone : Zone) (fl : Faults) (now : Int) (content : List Char) (xhr : Bool)
    (fs : FS) : FS × Response :=
  let fs1 :=
    if !(statNotes fl.statNotes fs).isNotExist then
      match readNotes fl.readNotes fs with
      | some old =>
        let fsDir := mkdirAllBackups fl.mkdirBackups fs
        let fsBak := writeBackup fl.writeBackup now (backupName zone now) old fsDir
        cleanupOldBackups fl now hour fsBak
      | none => fs
    else fs
  let fs2 := writeNotes fl.writeNotes now content fs1
  if xhr then
    let lastModTime :=
      match statNotes fl.statNotesAfter fs2 with
      | .ok mt => formatModTime (civilOf (localSec zone mt))
      | _ => []
    (fs2, .text 200 lastModTime)
  else (fs2, .redirect 302 ['/'])

/-- The handler of `/` for any other method (lines 86-256); `none` is a panic. -/
def rootGet (zone : Zone) (fl : Faults) (now : Int) (fs : FS) : FS × Option Response :=
  let fs1 :=
    if (statNotes fl.statNotes fs).isNotExist then writeNotes fl.writeNotes now [] fs else fs
  match readNotes fl.readNotes fs1 with
  | none => (fs1, some (.text 500 "Error reading notes file".toList))
  | some content =>
    let lastModTime :=
      match statNotes fl.statNotesAfter fs1 with
      | .ok mt => formatModTime (civilOf (localSec zone mt))
      | _ => []
    match readDir fl.readDir fs1 with
    | none => (fs1, some (.editorPage content lastModTime 0 []))
    | some files =>
      match backupOptions files.reverse with
      | none => (fs1, none)
      | some backupFiles => (fs1, some (.editorPage content lastModTime files.length backupFiles))

/-- The name that the `/backup/` handler joins to `backupDir` (lines 262-279), or the 400
response with which it returns before touching a file. -/
def backupTarget (path : List Char) : Except Response (List Char) :=
  let backupFileName := Base path
  if Contains backupFileName "..".toList || Contains backupFileName "/".toList then
    .error (.text 400 "Invalid backup filename".toList)
  else if !HasSuffix backupFileName ".bak".toList then
    .error (.text 400 "Invalid backup file type".toList)
  else .ok backupFileName

/-- The handler of `/backup/` (lines 260-353) for the request path `r.URL.Path`; `none` is a
panic. -/
def backupHandler (fl : Faults) (path : List Char) (fs : FS) : Option Response :=
  match backupTarget path with
  | .error resp => some resp
  | .ok backupFileName =>
    if (statBackup fl.statBackup backupFileName fs).isNotExist then
      some (.text 404 "Backup file not found".toList)
    else
      match readBackup fl.readBackup backupFileName fs with
      | none => some (.text 500 "Error reading backup file".toList)
      | some content =>
        match viewerLabel backupFileName with
        | none => none
        | some displayDate => some (.viewerPage displayDate content)

/-! ## Runs of requests -/

/-- No document and no backup directory. -/
def emptyFS : FS := { notes := none, backups := none }

/-- A run of saves: a fault-free `POST /` for each pair of an instant and a content, in
order. -/
def saveAll (zone : Zone) (saves : List (Int × List Char)) (fs : FS) : FS :=
  saves.foldl (fun acc s => (rootPost zone noFaults s.1 s.2 false acc).1) fs

/-- The content that the backup viewer shows for a value of the dropdown: the request
`GET /backup/<value>`. -/
def viewBackup (value : List Char) (fs : FS) : Option (List Char) :=
  match backupHandler noFaults ("/backup/".toList ++ value) fs with
  | some (.viewerPage _ content) => some content
  | _ => none

/-- The values of a list of options, each with the content that the viewer shows for it. -/
def viewAll (fs : FS) : List BackupOption → Option (List (List Char × List Char))
  | [] => some []
  | o :: rest =>
    match viewBackup o.value fs, viewAll fs rest with
    | some c, some cs => some ((o.value, c) :: cs)
    | _, _ => none

/-- The backup catalog as a client sees it: the options of the dropdown of `GET /`, in order,
each with the content of `GET /backup/<value>`; `none` when a request does not give its
page. -/
def catalog (zone : Zone) (now : Int) (fs : FS) : Option (List (List Char × List Char)) :=
  match rootGet zone noFaults now fs with
  | (fs1, some (.editorPage _ _ _ backupFiles)) => viewAll fs1 backupFiles
  | _ => none

/-! ## Notions used in the statements -/

/-- The sweep decides to delete `f` and the deletion succeeds. -/
def removed (fl : Faults) (cutoffTime : Int) (f : FileInfo) : Bool :=
  (!f.isDir && decide (f.modTime < cutoffTime)) && !fl.remove f.name

/-- The entry `e` survives the sweep over `files`: no deleted file has its name. -/
def kept (fl : Faults) (cutoffTime : Int) (files : List FileInfo) (e : FileInfo) : Bool :=
  files.all (fun f => !(removed fl cutoffTime f) || e.name != f.name)

/-- The entries that the dropdown shows: files whose name ends in `.bak`. -/
def isBackupFile (f : FileInfo) : Bool := !f.isDir && HasSuffix f.name ".bak".toList

/-- Strict lexicographic order on the six calendar fields. -/
def Civil.lt (a b : Civil) : Prop :=
  a.year < b.year ∨ (a.year = b.year ∧ (a.month < b.month ∨ (a.month = b.month ∧
    (a.day < b.day ∨ (a.day = b.day ∧ (a.hh < b.hh ∨ (a.hh = b.hh ∧
      (a.mm < b.mm ∨ (a.mm = b.mm ∧ a.ss < b.ss)))))))))

/-- The calendar fields are in the range of the layout: four-digit year, two-digit fields. -/
def Civil.inRange (c : Civil) : Prop :=
  (0 ≤ c.year ∧ c.year ≤ 9999) ∧ (0 ≤ c.month ∧ c.month < 100) ∧ (0 ≤ c.day ∧ c.day < 100) ∧
  (0 ≤ c.hh ∧ c.hh < 100) ∧ (0 ≤ c.mm ∧ c.mm < 100) ∧ (0 ≤ c.ss ∧ c.ss < 100)

/-- The backups that a run of saves over a document of content `prev` writes: each save
writes the content before it under the name of its own instant. -/
def expectedBackups (zone : Zone) (prev : List Char) : List (Int × List Char) → List FileInfo
  | [] => []
  | s :: rest =>
    { name := backupName zone s.1, isDir := false, modTime := s.1, content := prev } ::
      expectedBackups zone s.2 rest

/-- An entry as a save writes it in a four-digit year: a file named by the time stamp of its
modification time. -/
def SaveMade (zone : Zone) (e : FileInfo) : Prop :=
  e.isDir = false ∧ e.name = backupName zone e.modTime ∧
  (0 ≤ (civilOf (localSec zone e.modTime)).year ∧
    (civilOf (localSec zone e.modTime)).year ≤ 9999)

/-! ## Concrete states used by the examples -/

/-- The zone UTC. -/
def utc : Zone := fun _ => 0

/-- A state with the document and one backup, written on 2024-01-01 at 12:00:00 UTC. -/
def oneBackup : FS :=
  { notes := some { content := "new".toList, modTime := 1704110400000000000 },
    backups := some [{ name := "notes_20240101_120000.bak".toList, isDir := false,
                       modTime := 1704110400000000000, content := "old".toList }] }

/-- A state whose backup directory holds a file with a 12-byte name ending in `.bak`. -/
def shortNameBackup : FS :=
  { notes := some { content := "new".toList, modTime := 1704110400000000000 },
    backups := some [{ name := "notes_01.bak".toList, isDir := false,
                       modTime := 1704110400000000000, content := "old".toList }] }

/-- Every operation of the backup subsystem fails: reading the previous content, creating the
backup directory, writing the backup file, listing the directory and deleting an entry. -/
def backupFaults : Faults :=
  { noFaults with readNotes := true, mkdirBackups := true, writeBackup := true,
                  readDir := true, remove := fun _ => true }

/-- The write of `notes.txt` fails; every other operation succeeds. -/
def writeFault : Faults := { noFaults with writeNotes := true }

/-- No document, and a backup written at 10:00:00 UTC on 2024-01-01. -/
def staleBackupNoDocument : FS :=
  { notes := none,
    backups := some [{ name := "notes_20240101_100000.bak".toList, isDir := false,
                       modTime := 1704103200000000000, content := "v0".toList }] }

/-- A document, and a subdirectory of the backup directory last modified at 10:00:00 UTC. -/
def staleDirectory : FS :=
  { notes := some { content := "b".toList, modTime := 1704103200000000000 },
    backups := some [{ name := "archive".toList, isDir := true,
                       modTime := 1704103200000000000, content := [] }] }

/-- A document with content `b`, and the backup of `a` written at 12:30:00.0 UTC. -/
def sameSecondBackup : FS :=
  { notes := some { content := "b".toList, modTime := 1704112200000000000 },
    backups := some [{ name := "notes_20240101_123000.bak".toList, isDir := false,
                       modTime := 1704112200000000000, content := "a".toList }] }

/-- A document, a backup written at 10:00:00 UTC and a backup written at 12:00:00 UTC. -/
def oldAndFreshBackups : FS :=
  { notes := some { content := "b".toList, modTime := 1704110400000000000 },
    backups := some [{ name := "notes_20240101_100000.bak".toList, isDir := false,
                       modTime := 1704103200000000000, content := "v0".toList },
                     { name := "notes_20240101_120000.bak".toList, isDir := false,
                       modTime := 1704110400000000000, content := "a".toList }] }

/-- A zone with the autumn change of New York in 2024: four hours behind UTC before
2024-11-03 06:00:00 UTC, five hours behind from then on. -/
def newYork2024 : Zone := fun s => if s < 1730613600 then -14400 else -18000

/-- A document and the two backups that saves at 05:50:00 UTC (local 01:50:00, before the
change) and at 06:10:00 UTC (local 01:10:00, after the change) write in `newYork2024`. -/
def fallBackBackups : FS :=
  { notes := some { content := "v3".toList, modTime := 1730614200000000000 },
    backups := some [{ name := "notes_20241103_015000.bak".toList, isDir := false,
                       modTime := 1730613000000000000, content := "v1".toList },
                     { name := "notes_20241103_011000.bak".toList, isDir := false,
                       modTime := 1730614200000000000, content := "v2".toList }] }

/-- The backups written at 12:00:05 and 12:00:09 UTC on 2024-01-01. -/
def twoBackupEntries : List FileInfo :=
  [{ name := "notes_20240101_120005.bak".toList, isDir := false,
     modTime := 1704110405000000000, content := "hello".toList },
   { name := "notes_20240101_120009.bak".toList, isDir := false,
     modTime := 1704110409000000000, content := "world".toList }]

/-- A document and the two backups of `twoBackupEntries`. -/
def twoBackups : FS :=
  { notes := some { content := "!!!".toList, modTime := 1704110409000000000 },
    backups := some twoBackupEntries }

/-- The scenario of the spec in UTC: saves at 12:00:00, 12:00:05 and 12:00:09 on
2024-01-01. -/
def helloWorld : List (Int × List Char) :=
  [(1704110400000000000, "hello".toList), (1704110405000000000, "world".toList),
   (1704110409000000000, "!!!".toList)]

/-- The scenario of the spec in `newYork2024` around the change of offset: saves at 05:40:00,
05:50:00 and 06:10:00 UTC, that is at 01:40:00, 01:50:00 and 01:10:00 local time. -/
def helloWorldFallBack : List (Int × List Char) :=
  [(1730612400000000000, "hello".toList), (1730613000000000000, "world".toList),
   (1730614200000000000, "!!!".toList)]

/-- The scenario of the spec in UTC across the end of the year 9999: saves at 23:59:40 and
23:59:50 on 9999-12-31 and at 00:00:10 on 10000-01-01. -/
def helloWorldYear10000 : List (Int × List Char) :=
  [(253402300780000000000, "hello".toList), (253402300790000000000, "world".toList),
   (253402300810000000000, "!!!".toList)]
/-! ## Facts about the string functions -/

theorem Contains_iff (s sub : List Char) : Contains s sub = true ↔ sub <:+: s := by
  induction s with
  | nil => cases sub <;> simp [Contains]
  | cons c cs ih =>
    simp only [Contains, Bool.or_eq_true, ih, List.isPrefixOf_iff_prefix, List.infix_cons_iff]

theorem HasSuffix_iff (s suf : List Char) : HasSuffix s suf = true ↔ suf <:+ s := by
  unfold HasSuffix
  rw [List.suffix_iff_eq_drop]
  constructor
  · intro h
    simp only [Bool.and_eq_true, decide_eq_true_eq, beq_iff_eq] at h
    exact h.2.symm
  · intro h
    have hl : suf.length ≤ s.length := by
      have := congrArg List.length h
      simp only [List.length_drop] at this
      omega
    simp only [Bool.and_eq_true, decide_eq_true_eq, beq_iff_eq]
    exact ⟨hl, h.symm⟩

theorem not_mem_of_Contains_false (s : List Char) (c : Char) (h : Contains s [c] = false) :
    c ∉ s := by
  intro hc
  have : Contains s [c] = true := by
    rw [Contains_iff]
    obtain ⟨a, b, hab⟩ := List.append_of_mem hc
    exact ⟨a, b, by simp [hab]⟩
  rw [this] at h
  exact Bool.noConfusion h

/-! ## The `/backup/` handler -/

theorem Base_no_slash (path : List Char) (h : '/' ∈ Base path) : Base path = ['/'] := by
  unfold Base at h ⊢
  by_cases hp : path = []
  · simp [hp] at h
  · simp only [hp, if_false] at h ⊢
    split at h
    · rename_i hl
      rw [if_pos hl]
    · rename_i hl
      rw [List.mem_reverse] at h
      have := List.mem_takeWhile_imp h
      simp at this

theorem Contains_slash_Base (path : List Char)
    (h : HasSuffix (Base path) ".bak".toList = true) :
    Contains (Base path) "/".toList = false := by
  by_contra hc
  have hc1 : Contains (Base path) "/".toList = true := by simpa using hc
  rw [Contains_iff] at hc1
  have hmem : '/' ∈ Base path := by
    obtain ⟨a, b, hab⟩ := hc1
    rw [← hab]; simp
  have hb := Base_no_slash path hmem
  rw [hb] at h
  revert h
  decide

theorem stampOfName_of_long (name : List Char) (h : 21 ≤ name.length) :
    ∃ v, stampOfName name = some v := by
  unfold stampOfName slice
  rw [if_pos ⟨by omega, by omega⟩, if_pos ⟨by omega, by omega⟩]
  exact ⟨_, rfl⟩

theorem stampOfName_of_short (name : List Char) (h : name.length ≤ 20) :
    stampOfName name = none := by
  unfold stampOfName slice
  by_cases h14 : (6 : Nat) ≤ 14 ∧ 14 ≤ name.length
  · rw [if_pos h14, if_neg (by omega)]
  · rw [if_neg h14]

/-- The viewer label is computed without a panic exactly when the name is at most 11 or at
least 21 bytes long. -/
theorem viewerLabel_eq_none_iff (name : List Char) :
    viewerLabel name = none ↔ 12 ≤ name.length ∧ name.length ≤ 20 := by
  unfold viewerLabel
  by_cases h11 : name.length > 11
  · rw [if_pos h11]
    by_cases h21 : 21 ≤ name.length
    · obtain ⟨v, hv⟩ := stampOfName_of_long name h21
      rw [hv]
      constructor
      · intro h
        cases hp : timeParse v <;> simp [hp] at h
      · intro h; omega
    · rw [stampOfName_of_short name (by omega)]
      simp; omega
  · rw [if_neg h11]
    simp; omega

/-- The listing label is computed without a panic exactly when the name is at most 11 or at
least 21 bytes long. -/
theorem listLabel_eq_none_iff (name : List Char) :
    listLabel name = none ↔ 12 ≤ name.length ∧ name.length ≤ 20 := by
  unfold listLabel
  by_cases h11 : name.length > 11
  · rw [if_pos h11]
    by_cases h21 : 21 ≤ name.length
    · obtain ⟨v, hv⟩ := stampOfName_of_long name h21
      rw [hv]
      constructor
      · intro h
        cases hp : timeParse v <;> simp [hp] at h
      · intro h; omega
    · rw [stampOfName_of_short name (by omega)]
      simp; omega
  · rw [if_neg h11]
    simp; omega

theorem backupTarget_bad_name (path : List Char)
    (h : (Contains (Base path) "..".toList || Contains (Base path) "/".toList) = true) :
    backupTarget path = .error (.text 400 "Invalid backup filename".toList) := by
  unfold backupTarget
  dsimp only
  rw [if_pos h]

theorem backupTarget_bad_type (path : List Char)
    (h : (Contains (Base path) "..".toList || Contains (Base path) "/".toList) = false)
    (h2 : HasSuffix (Base path) ".bak".toList = false) :
    backupTarget path = .error (.text 400 "Invalid backup file type".toList) := by
  unfold backupTarget
  dsimp only
  rw [h, h2, if_neg (by decide), if_pos (by decide)]

theorem backupTarget_ok (path : List Char)
    (h : (Contains (Base path) "..".toList || Contains (Base path) "/".toList) = false)
    (h2 : HasSuffix (Base path) ".bak".toList = true) :
    backupTarget path = .ok (Base path) := by
  unfold backupTarget
  dsimp only
  rw [h, h2, if_neg (by decide), if_neg (by decide)]

/-- C5: whatever the request path, the `/backup/` handler either answers 400 without looking
at the file system, or the only file it stats and reads is `backupDir` joined with the single
name `Base path`, which has no `/`, no `..` and ends in `.bak`: its answer depends on the
file system through the entry of that name alone. -/
theorem backup_handler_reads_only_direct_child (path : List Char) :
    (∃ resp, backupTarget path = .error resp ∧ resp.status = 400 ∧
        ∀ fl fs, backupHandler fl path fs = some resp) ∨
    (∃ n, backupTarget path = .ok n ∧ n = Base path ∧ '/' ∉ n ∧ ¬ (['.', '.'] <:+: n) ∧
        ".bak".toList <:+ n ∧
        ∀ fl fs fs', findBackup n fs = findBackup n fs' →
          backupHandler fl path fs = backupHandler fl path fs') := by
  cases h1 : (Contains (Base path) "..".toList || Contains (Base path) "/".toList)
  · cases h2 : HasSuffix (Base path) ".bak".toList
    · left
      have ht := backupTarget_bad_type path h1 h2
      refine ⟨_, ht, rfl, ?_⟩
      intro fl fs; unfold backupHandler; rw [ht]
    · right
      have ht := backupTarget_ok path h1 h2
      rw [Bool.or_eq_false_iff] at h1
      refine ⟨Base path, ht, rfl, ?_, ?_, ?_, ?_⟩
      · exact not_mem_of_Contains_false _ _ h1.2
      · intro hin
        have := (Contains_iff (Base path) ['.', '.']).mpr hin
        have h1a : Contains (Base path) ['.', '.'] = false := h1.1
        rw [this] at h1a
        exact Bool.noConfusion h1a
      · exact (HasSuffix_iff _ _).mp h2
      · intro fl fs fs' hfind
        unfold backupHandler
        rw [ht]
        simp only [statBackup, readBackup, hfind]
  · left
    have ht := backupTarget_bad_name path h1
    refine ⟨_, ht, rfl, ?_⟩
    intro fl fs; unfold backupHandler; rw [ht]

/-- Instance of C5: the request for a backup reads the entry of that name, the request with
directories in front reads the entry of the last element, and a name with `..` is refused. -/
theorem backup_handler_reads_only_direct_child_witness :
    ((∃ resp, backupTarget "/backup/x/notes_20240101_120000.bak".toList = .error resp ∧
        resp.status = 400 ∧
        ∀ fl fs, backupHandler fl "/backup/x/notes_20240101_120000.bak".toList fs
          = some resp) ∨
      (∃ n, backupTarget "/backup/x/notes_20240101_120000.bak".toList = .ok n ∧
        n = Base "/backup/x/notes_20240101_120000.bak".toList ∧ '/' ∉ n ∧
        ¬ (['.', '.'] <:+: n) ∧ ".bak".toList <:+ n ∧
        ∀ fl fs fs', findBackup n fs = findBackup n fs' →
          backupHandler fl "/backup/x/notes_20240101_120000.bak".toList fs
            = backupHandler fl "/backup/x/notes_20240101_120000.bak".toList fs')) ∧
    backupTarget "/backup/x/notes_20240101_120000.bak".toList
      = .ok "notes_20240101_120000.bak".toList ∧
    backupTarget "/backup/notes_20240101_120000.bak".toList
      = .ok "notes_20240101_120000.bak".toList ∧
    backupTarget "/backup/..notes.bak".toList
      = .error (.text 400 "Invalid backup filename".toList) :=
  ⟨backup_handler_reads_only_direct_child "/backup/x/notes_20240101_120000.bak".toList,
    rfl, rfl, rfl⟩

/-- The viewer page: a well-formed last path element that names a readable file whose label
computation does not panic. -/
theorem backupHandler_page (fl : Faults) (path : List Char) (fs : FS) (e : FileInfo)
    (hstat : fl.statBackup = false) (hread : fl.readBackup = false)
    (h1 : Contains (Base path) "..".toList = false)
    (h2 : HasSuffix (Base path) ".bak".toList = true)
    (hf : findBackup (Base path) fs = some e) (hd : e.isDir = false)
    (hlen : (Base path).length ≤ 11 ∨ 21 ≤ (Base path).length) :
    ∃ displayDate, backupHandler fl path fs = some (.viewerPage displayDate e.content) := by
  have h3 := Contains_slash_Base path h2
  have hl : viewerLabel (Base path) ≠ none := by
    rw [Ne, viewerLabel_eq_none_iff]; omega
  obtain ⟨d, hd'⟩ := Option.ne_none_iff_exists'.mp hl
  refine ⟨d, ?_⟩
  unfold backupHandler
  rw [backupTarget_ok path (by rw [h1, h3]; rfl) h2]
  simp only [statBackup, readBackup, hstat, hread, hf, hd, hd']
  rfl

/-- C4, as stated, fails: the request `GET /backup/x/notes_20240101_120000.bak` names
something with a path separator, and the handler answers 200 with the content of the backup
`notes_20240101_120000.bak`. -/
theorem backup_handler_serves_name_with_separator :
    Contains "x/notes_20240101_120000.bak".toList "/".toList = true ∧
    backupHandler noFaults ("/backup/".toList ++ "x/notes_20240101_120000.bak".toList) oneBackup
      = some (.viewerPage "January 1, 2024 at 12:00:00".toList "old".toList) ∧
    (Response.viewerPage "January 1, 2024 at 12:00:00".toList "old".toList).status = 200 := by
  decide

/-- C4, amended: with `name` the last element of the request path (`filepath.Base`), the
answer is 400 when `name` contains `..` or does not end in `.bak`; otherwise it is 404 when
the backup directory has no entry `name`; and it is the viewer page (status 200) with the
content of the entry when that entry is a readable file whose name is at most 11 or at least
21 bytes long. -/
theorem backup_handler_responses (fl : Faults) (path : List Char) (fs : FS)
    (hstat : fl.statBackup = false) (hread : fl.readBackup = false) :
    (Contains (Base path) "..".toList = true ∨ HasSuffix (Base path) ".bak".toList = false →
        (backupHandler fl path fs).map Response.status = some 400) ∧
    (Contains (Base path) "..".toList = false → HasSuffix (Base path) ".bak".toList = true →
        findBackup (Base path) fs = none →
        (backupHandler fl path fs).map Response.status = some 404) ∧
    (∀ e, Contains (Base path) "..".toList = false →
        HasSuffix (Base path) ".bak".toList = true →
        findBackup (Base path) fs = some e → e.isDir = false →
        ((Base path).length ≤ 11 ∨ 21 ≤ (Base path).length) →
        ∃ displayDate, backupHandler fl path fs = some (.viewerPage displayDate e.content) ∧
          (Response.viewerPage displayDate e.content).status = 200) := by
  refine ⟨?_, ?_, ?_⟩
  · intro h
    unfold backupHandler
    cases h1 : (Contains (Base path) "..".toList || Contains (Base path) "/".toList)
    · have h2 : HasSuffix (Base path) ".bak".toList = false := by
        rcases h with h | h
        · rw [h, Bool.true_or] at h1; exact Bool.noConfusion h1
        · exact h
      rw [backupTarget_bad_type path h1 h2]; rfl
    · rw [backupTarget_bad_name path h1]; rfl
  · intro h1 h2 hf
    have h3 := Contains_slash_Base path h2
    unfold backupHandler
    rw [backupTarget_ok path (by rw [h1, h3]; rfl) h2]
    simp only [statBackup, hstat, hf]
    rfl
  · intro e h1 h2 hf hd hlen
    obtain ⟨d, hd'⟩ := backupHandler_page fl path fs e hstat hread h1 h2 hf hd hlen
    exact ⟨d, hd', rfl⟩

/-- Instance of the amended C4: the three answers at concrete requests. -/
theorem backup_handler_responses_witness :
    (backupHandler noFaults "/backup/a..b.bak".toList oneBackup).map Response.status = some 400 ∧
    (backupHandler noFaults "/backup/notes_19990101_000000.bak".toList oneBackup).map
        Response.status = some 404 ∧
    ∃ displayDate,
      backupHandler noFaults "/backup/notes_20240101_120000.bak".toList oneBackup
        = some (.viewerPage displayDate "old".toList) ∧
      (Response.viewerPage displayDate "old".toList).status = 200 :=
  ⟨(backup_handler_responses noFaults "/backup/a..b.bak".toList oneBackup rfl rfl).1
      (Or.inl (by decide)),
   (backup_handler_responses noFaults "/backup/notes_19990101_000000.bak".toList oneBackup
      rfl rfl).2.1 (by decide) (by decide) (by decide),
   (backup_handler_responses noFaults "/backup/notes_20240101_120000.bak".toList oneBackup
      rfl rfl).2.2
      { name := "notes_20240101_120000.bak".toList, isDir := false,
        modTime := 1704110400000000000, content := "old".toList }
      (by decide) (by decide) (by decide) rfl (by decide)⟩

/-- C7: a file `notes_01.bak` (12 bytes, ending in `.bak`) in the backup directory makes the
label computation of both handlers slice out of range: `name[6:14]` panics, so `GET /` and
`GET /backup/notes_01.bak` end in a panic instead of showing the raw name.  The same happens
for every name of 12 to 20 bytes, and for no other name. -/
theorem label_panics_on_short_bak_name :
    HasSuffix "notes_01.bak".toList ".bak".toList = true ∧
    slice "notes_01.bak".toList 6 14 = none ∧
    listLabel "notes_01.bak".toList = none ∧
    viewerLabel "notes_01.bak".toList = none ∧
    (rootGet utc noFaults 1704110400000000000 shortNameBackup).2 = none ∧
    backupHandler noFaults "/backup/notes_01.bak".toList shortNameBackup = none ∧
    (∀ name : List Char, listLabel name = none ↔ 12 ≤ name.length ∧ name.length ≤ 20) ∧
    (∀ name : List Char, viewerLabel name = none ↔ 12 ≤ name.length ∧ name.length ≤ 20) :=
  ⟨by decide, by decide, by decide, by decide, by decide, by decide,
    listLabel_eq_none_iff, viewerLabel_eq_none_iff⟩

/-- The well-formed name of the spec gets its two labels. -/
theorem labels_of_well_formed_name :
    listLabel "notes_20240101_120000.bak".toList = some "Jan 1, 2024 at 12:00:00".toList ∧
    viewerLabel "notes_20240101_120000.bak".toList
      = some "January 1, 2024 at 12:00:00".toList := by
  decide

/-! ## The save path: `notes.txt` -/

theorem mkdirAllBackups_notes (b : Bool) (fs : FS) : (mkdirAllBackups b fs).notes = fs.notes := by
  unfold mkdirAllBackups
  split
  · rfl
  · split <;> rfl

theorem writeBackup_notes (b : Bool) (now : Int) (n c : List Char) (fs : FS) :
    (writeBackup b now n c fs).notes = fs.notes := by
  unfold writeBackup
  split
  · rfl
  · split
    · rfl
    · split <;> rfl

theorem removeBackup_notes (b : Bool) (n : List Char) (fs : FS) :
    (removeBackup b n fs).notes = fs.notes := by
  unfold removeBackup
  split <;> rfl

theorem sweep_eq (fl : Faults) (cutoffTime : Int) (files : List FileInfo) (fs : FS) :
    files.foldl
      (fun acc file =>
        if (!file.isDir && decide (file.modTime < cutoffTime)) = true then
          removeBackup (fl.remove file.name) file.name acc
        else acc)
      fs
    = { notes := fs.notes,
        backups := fs.backups.map (fun es => es.filter (kept fl cutoffTime files)) } := by
  induction files generalizing fs with
  | nil =>
    cases fs with
    | mk notes backups =>
      cases backups with
      | none => rfl
      | some es =>
        have : es.filter (kept fl cutoffTime []) = es :=
          List.filter_eq_self.mpr (fun a _ => rfl)
        simp only [List.foldl_nil, Option.map_some', this]
  | cons f rest ih =>
    rw [List.foldl_cons, ih]
    cases fs with
    | mk notes backups =>
      have hk : ∀ e, kept fl cutoffTime (f :: rest) e
          = ((!(removed fl cutoffTime f) || e.name != f.name) && kept fl cutoffTime rest e) := by
        intro e; rfl
      by_cases hs : (!f.isDir && decide (f.modTime < cutoffTime)) = true
      · rw [if_pos hs]
        cases hr : fl.remove f.name
        · have hrem : removed fl cutoffTime f = true := by
            unfold removed; rw [hs, hr]; rfl
          cases backups with
          | none => rfl
          | some es =>
            simp only [removeBackup, Bool.false_eq_true, if_false, Option.map_some',
              List.filter_filter, FS.mk.injEq, true_and, Option.some.injEq]
            apply List.filter_congr
            intro e _
            rw [hk, hrem, Bool.not_true, Bool.false_or, Bool.and_comm]
        · have hrem : removed fl cutoffTime f = false := by
            unfold removed; rw [hs, hr]; rfl
          cases backups with
          | none => rfl
          | some es =>
            simp only [removeBackup, if_true, Option.map_some', FS.mk.injEq, true_and,
              Option.some.injEq]
            apply List.filter_congr
            intro e _
            rw [hk, hrem, Bool.not_false, Bool.true_or, Bool.true_and]
      · rw [if_neg hs]
        have hrem : removed fl cutoffTime f = false := by
          have hs' : (!f.isDir && decide (f.modTime < cutoffTime)) = false := by
            simpa using hs
          unfold removed; rw [hs']; rfl
        cases backups with
        | none => rfl
        | some es =>
          simp only [Option.map_some', FS.mk.injEq, true_and, Option.some.injEq]
          apply List.filter_congr
          intro e _
          rw [hk, hrem, Bool.not_false, Bool.true_or, Bool.true_and]

/-- What `cleanupOldBackups` does to the state. -/
theorem cleanupOldBackups_eq (fl : Faults) (now maxAge : Int) (fs : FS) :
    cleanupOldBackups fl now maxAge fs =
      match readDir fl.readDir fs with
      | none => fs
      | some files =>
        { notes := fs.notes,
          backups := fs.backups.map (fun es => es.filter (kept fl (now - maxAge) files)) } := by
  unfold cleanupOldBackups
  cases readDir fl.readDir fs with
  | none => rfl
  | some files => exact sweep_eq fl (now - maxAge) files fs

theorem cleanupOldBackups_notes (fl : Faults) (now maxAge : Int) (fs : FS) :
    (cleanupOldBackups fl now maxAge fs).notes = fs.notes := by
  rw [cleanupOldBackups_eq]
  cases readDir fl.readDir fs <;> rfl

theorem statNotes_congr (b : Bool) (fs fs' : FS) (h : fs.notes = fs'.notes) :
    statNotes b fs = statNotes b fs' := by
  unfold statNotes
  rw [h]

/-- The backup steps of a save (lines 49-66) leave `notes.txt` as it is. -/
theorem rootPost_notes (zone : Zone) (fl : Faults) (now : Int) (content : List Char)
    (xhr : Bool) (fs : FS) :
    (rootPost zone fl now content xhr fs).1.notes
      = (writeNotes fl.writeNotes now content fs).notes := by
  have key : ∀ fs1 : FS, fs1.notes = fs.notes →
      (writeNotes fl.writeNotes now content fs1).notes
        = (writeNotes fl.writeNotes now content fs).notes := by
    intro fs1 h
    unfold writeNotes
    split
    · exact h
    · rfl
  unfold rootPost
  dsimp only
  split <;> (apply key; split)
  · split
    · rw [cleanupOldBackups_notes, writeBackup_notes, mkdirAllBackups_notes]
    · rfl
  · rfl
  · split
    · rw [cleanupOldBackups_notes, writeBackup_notes, mkdirAllBackups_notes]
    · rfl
  · rfl

/-- The response of a save is computed from `notes.txt` after the write alone. -/
theorem rootPost_response (zone : Zone) (fl : Faults) (now : Int) (content : List Char)
    (xhr : Bool) (fs : FS) :
    (rootPost zone fl now content xhr fs).2 =
      if xhr then
        .text 200
          (match statNotes fl.statNotesAfter
              { notes := (writeNotes fl.writeNotes now content fs).notes, backups := none } with
            | .ok mt => formatModTime (civilOf (localSec zone mt))
            | _ => [])
      else .redirect 302 ['/'] := by
  have hn := rootPost_notes zone fl now content xhr fs
  unfold rootPost at hn ⊢
  dsimp only at hn ⊢
  cases xhr
  · rfl
  · rw [if_pos rfl] at hn ⊢
    dsimp only at hn ⊢
    rw [statNotes_congr _ _
      { notes := (writeNotes fl.writeNotes now content fs).notes, backups := none } hn]
    rfl

/-- C9: a save whose write of `notes.txt` succeeds leaves the document with exactly the posted
content and answers exactly as the run in which every backup step succeeds, whichever of the
backup steps fail (stat or read of the previous content, creation of the backup directory,
write of the backup file, listing of the directory, deletion of a stale entry). -/
theorem save_not_blocked_by_backup_faults (zone : Zone) (fl : Faults) (now : Int)
    (content : List Char) (xhr : Bool) (fs : FS)
    (hw : fl.writeNotes = false) (hs : fl.statNotesAfter = false) :
    (rootPost zone fl now content xhr fs).1.notes
        = some { content := content, modTime := now } ∧
    (rootPost zone fl now content xhr fs).2 = (rootPost zone noFaults now content xhr fs).2 ∧
    (rootPost zone fl now content xhr fs).2 =
      (if xhr then .text 200 (formatModTime (civilOf (localSec zone now)))
       else .redirect 302 ['/']) := by
  have h1 : (writeNotes fl.writeNotes now content fs).notes
      = some { content := content, modTime := now } := by
    rw [hw]; rfl
  have h2 : (writeNotes noFaults.writeNotes now content fs).notes
      = some { content := content, modTime := now } := rfl
  refine ⟨?_, ?_, ?_⟩
  · rw [rootPost_notes, h1]
  · rw [rootPost_response, rootPost_response, h1, h2, hs]
    rfl
  · rw [rootPost_response, h1, hs]
    rfl

/-- Instance of C9: every backup step fails, the document is written and the answer is the
time stamp. -/
theorem save_not_blocked_by_backup_faults_witness :
    (rootPost utc backupFaults 1704110460000000000 "edit".toList true oneBackup).1.notes
        = some { content := "edit".toList, modTime := 1704110460000000000 } ∧
    (rootPost utc backupFaults 1704110460000000000 "edit".toList true oneBackup).2
        = (rootPost utc noFaults 1704110460000000000 "edit".toList true oneBackup).2 ∧
    (rootPost utc backupFaults 1704110460000000000 "edit".toList true oneBackup).2
        = (if true then .text 200 (formatModTime (civilOf (localSec utc 1704110460000000000)))
           else .redirect 302 ['/']) :=
  save_not_blocked_by_backup_faults utc backupFaults 1704110460000000000 "edit".toList true
    oneBackup rfl rfl

/-- A save never answers with an error status. -/
theorem rootPost_status (zone : Zone) (fl : Faults) (now : Int) (content : List Char)
    (xhr : Bool) (fs : FS) :
    (rootPost zone fl now content xhr fs).2.status = 200 ∨
    (rootPost zone fl now content xhr fs).2.status = 302 := by
  rw [rootPost_response]
  cases xhr
  · right; rfl
  · left; rfl

/-- A failed read of `notes.txt` makes `GET /` answer 500. -/
theorem rootGet_read_failure (zone : Zone) (fl : Faults) (now : Int) (fs : FS)
    (h : fl.readNotes = true) :
    (rootGet zone fl now fs).2 = some (.text 500 "Error reading notes file".toList) := by
  unfold rootGet
  simp only [readNotes, h, if_true]

/-- C6: the write of `notes.txt` fails (`writeFault`), and the save answers as if it had
succeeded: status 200 with the modification time of the old file for an asynchronous request,
the redirect 302 otherwise, while the document keeps its old content.  No save ever answers
with an error status, whatever fails. -/
theorem failed_write_answers_success :
    rootPost utc writeFault 1704110460000000000 "edit".toList true oneBackup
      = ({ notes := some { content := "new".toList, modTime := 1704110400000000000 },
           backups := some
             [{ name := "notes_20240101_120000.bak".toList, isDir := false,
                modTime := 1704110400000000000, content := "old".toList },
              { name := "notes_20240101_120100.bak".toList, isDir := false,
                modTime := 1704110460000000000, content := "new".toList }] },
         .text 200 "2024-01-01 12:00:00".toList) ∧
    (rootPost utc writeFault 1704110460000000000 "edit".toList false oneBackup).2
      = .redirect 302 "/".toList ∧
    (rootPost utc writeFault 1704110460000000000 "edit".toList false oneBackup).1.notes
      = some { content := "new".toList, modTime := 1704110400000000000 } ∧
    ∀ (zone : Zone) (fl : Faults) (now : Int) (content : List Char) (xhr : Bool) (fs : FS),
      (rootPost zone fl now content xhr fs).2.status = 200 ∨
      (rootPost zone fl now content xhr fs).2.status = 302 :=
  ⟨by decide, by decide, by decide, rootPost_status⟩

/-! ## The save path: the backup directory -/

theorem mem_sortByName (es : List FileInfo) (f : FileInfo) : f ∈ sortByName es ↔ f ∈ es :=
  (List.perm_insertionSort nameLe es).mem_iff

theorem kept_iff (fl : Faults) (cutoffTime : Int) (files : List FileInfo) (e : FileInfo) :
    kept fl cutoffTime files e = true ↔
      ∀ f ∈ files, removed fl cutoffTime f = true → e.name ≠ f.name := by
  unfold kept
  rw [List.all_eq_true]
  constructor
  · intro h f hf hr heq
    have := h f hf
    rw [hr, heq] at this
    simp at this
  · intro h f hf
    cases hr : removed fl cutoffTime f
    · rfl
    · have := h f hf hr
      simp [bne_iff_ne, this]

/-- The state after a fault-free save over an existing document: the previous content is
written to the backup file, the sweep runs over the sorted listing, the document is replaced. -/
theorem rootPost_existing (zone : Zone) (now : Int) (old : List Char) (m : Int)
    (content : List Char) (xhr : Bool) (backups : Option (List FileInfo)) :
    (rootPost zone noFaults now content xhr
        { notes := some { content := old, modTime := m }, backups := backups }).1
      = { notes := some { content := content, modTime := now },
          backups :=
            (writeBackup false now (backupName zone now) old
              (mkdirAllBackups false
                { notes := some { content := old, modTime := m }, backups := backups })).backups.map
              (fun l => l.filter (kept noFaults (now - hour) (sortByName l))) } := by
  have hfs : ∀ fs1 : FS, writeNotes false now content fs1
      = { notes := some { content := content, modTime := now }, backups := fs1.backups } := by
    intro fs1; rfl
  unfold rootPost
  dsimp only
  have h1 : (!(statNotes noFaults.statNotes
      { notes := some { content := old, modTime := m }, backups := backups }).isNotExist)
        = true := rfl
  have h2 : readNotes noFaults.readNotes
      { notes := some { content := old, modTime := m }, backups := backups } = some old := rfl
  rw [if_pos h1, h2]
  dsimp only
  have h3 : noFaults.writeNotes = false := rfl
  have h4 : noFaults.mkdirBackups = false := rfl
  have h5 : noFaults.writeBackup = false := rfl
  rw [h3, h4, h5, cleanupOldBackups_eq]
  generalize writeBackup false now (backupName zone now) old
      (mkdirAllBackups false
        { notes := some { content := old, modTime := m }, backups := backups }) = wb
  have h6 : readDir noFaults.readDir wb = wb.backups.map sortByName := rfl
  rw [h6]
  cases wb with
  | mk n b =>
    cases b with
    | none => cases xhr <;> rfl
    | some l => cases xhr <;> rfl

/-- The state after a fault-free save when there is no document: only the document is
written. -/
theorem rootPost_absent (zone : Zone) (now : Int) (content : List Char) (xhr : Bool)
    (backups : Option (List FileInfo)) :
    (rootPost zone noFaults now content xhr { notes := none, backups := backups }).1
      = { notes := some { content := content, modTime := now }, backups := backups } := by
  cases xhr <;> rfl

/-- The backup file is written when no directory has its name. -/
theorem writeBackup_ok (now : Int) (name old : List Char) (notes : Option Document)
    (backups : Option (List FileInfo))
    (hok : ∀ e ∈ backups.getD [], e.name = name → e.isDir = false) :
    (writeBackup false now name old (mkdirAllBackups false
        { notes := notes, backups := backups })).backups
      = some ((backups.getD []).filter (fun e => e.name != name) ++
          [{ name := name, isDir := false, modTime := now, content := old }]) := by
  have hany : ∀ es : List FileInfo, (∀ e ∈ es, e.name = name → e.isDir = false) →
      es.any (fun e => e.name == name && e.isDir) = false := by
    intro es h
    rw [List.any_eq_false]
    intro e he hc
    rw [Bool.and_eq_true, beq_iff_eq] at hc
    rw [h e he hc.1] at hc
    exact Bool.noConfusion hc.2
  cases backups with
  | none =>
    simp only [mkdirAllBackups, writeBackup, Bool.false_eq_true, if_false, List.any_nil,
      Option.getD_none]
  | some es =>
    have := hany es hok
    simp only [mkdirAllBackups, writeBackup, Bool.false_eq_true, if_false, this,
      Option.getD_some]

/-- The entry just written is not swept: it is the only entry of its name and is not old. -/
theorem kept_new (now : Int) (name old : List Char) (rest : List FileInfo)
    (hrest : ∀ e ∈ rest, e.name ≠ name) :
    kept noFaults (now - hour)
      (sortByName (rest ++ [{ name := name, isDir := false, modTime := now, content := old }]))
      { name := name, isDir := false, modTime := now, content := old } = true := by
  rw [kept_iff]
  intro f hf hrem heq
  rw [mem_sortByName, List.mem_append, List.mem_singleton] at hf
  rcases hf with hf | hf
  · exact hrest f hf heq.symm
  · rw [hf] at hrem
    unfold removed at hrem
    simp only [Bool.not_false, Bool.true_and, Bool.and_eq_true, decide_eq_true_eq] at hrem
    have : hour = 3600000000000 := rfl
    omega

/-- The state after a fault-free save over an existing document, when no directory is in the
way of the backup file: the entries of other names that survive the sweep, then the backup
just written. -/
theorem rootPost_existing_state (zone : Zone) (now : Int) (old content : List Char)
    (m : Int) (xhr : Bool) (backups : Option (List FileInfo))
    (hok : ∀ e ∈ backups.getD [], e.name = backupName zone now → e.isDir = false) :
    ∃ rest : List FileInfo, (∀ e ∈ rest, e.name ≠ backupName zone now) ∧
      (rootPost zone noFaults now content xhr
          { notes := some { content := old, modTime := m }, backups := backups }).1
        = { notes := some { content := content, modTime := now },
            backups := some (rest ++
              [{ name := backupName zone now, isDir := false, modTime := now,
                 content := old }]) } := by
  have hrest : ∀ e ∈ (backups.getD []).filter (fun e => e.name != backupName zone now),
      e.name ≠ backupName zone now := by
    intro e he
    have := (List.mem_filter.mp he).2
    simpa [bne_iff_ne] using this
  have hk := kept_new now (backupName zone now) old _ hrest
  refine ⟨((backups.getD []).filter (fun e => e.name != backupName zone now)).filter
    (kept noFaults (now - hour) (sortByName
      ((backups.getD []).filter (fun e => e.name != backupName zone now) ++
        [{ name := backupName zone now, isDir := false, modTime := now, content := old }]))),
    fun e he => hrest e (List.mem_filter.mp he).1, ?_⟩
  rw [rootPost_existing, writeBackup_ok now _ old _ backups hok]
  simp only [Option.map_some', List.filter_append, List.filter_cons, hk, if_true,
    List.filter_nil]

/-- C1: when the document exists with content `old` and the file operations succeed (no fault,
no directory in the way of the backup file), a save of `content` leaves the document with
exactly `content` and the backup directory with the entry `notes_<stamp of now>.bak` whose
content is exactly `old`.  A restore is such a save, with the content of a backup. -/
theorem save_backs_up_previous_content (zone : Zone) (now : Int) (old content : List Char)
    (m : Int) (xhr : Bool) (fs : FS)
    (hdoc : fs.notes = some { content := old, modTime := m })
    (hok : ∀ e ∈ fs.backups.getD [], e.name = backupName zone now → e.isDir = false) :
    (rootPost zone noFaults now content xhr fs).1.notes
        = some { content := content, modTime := now } ∧
    findBackup (backupName zone now) (rootPost zone noFaults now content xhr fs).1
        = some { name := backupName zone now, isDir := false, modTime := now, content := old } ∧
    readBackup false (backupName zone now) (rootPost zone noFaults now content xhr fs).1
        = some old := by
  cases fs with
  | mk notes backups =>
    simp only at hdoc hok
    subst hdoc
    obtain ⟨rest, hrest, hstate⟩ := rootPost_existing_state zone now old content m xhr backups hok
    rw [hstate]
    have hfind : findBackup (backupName zone now)
        { notes := some { content := content, modTime := now },
          backups := some (rest ++
            [{ name := backupName zone now, isDir := false, modTime := now,
               content := old }]) }
        = some { name := backupName zone now, isDir := false, modTime := now,
                 content := old } := by
      have hnone : rest.find? (fun e => e.name == backupName zone now) = none := by
        rw [List.find?_eq_none]
        intro x hx
        simpa using hrest x hx
      simp only [findBackup, List.find?_append, hnone, Option.none_or, List.find?_cons,
        beq_self_eq_true]
    refine ⟨rfl, hfind, ?_⟩
    unfold readBackup
    rw [hfind]
    rfl

/-- Instance of C1: a save over the document of `oneBackup`, one minute later. -/
theorem save_backs_up_previous_content_witness :
    (rootPost utc noFaults 1704110460000000000 "edit".toList false oneBackup).1.notes
        = some { content := "edit".toList, modTime := 1704110460000000000 } ∧
    findBackup (backupName utc 1704110460000000000)
        (rootPost utc noFaults 1704110460000000000 "edit".toList false oneBackup).1
        = some { name := backupName utc 1704110460000000000, isDir := false,
                 modTime := 1704110460000000000, content := "new".toList } ∧
    readBackup false (backupName utc 1704110460000000000)
        (rootPost utc noFaults 1704110460000000000 "edit".toList false oneBackup).1
        = some "new".toList :=
  save_backs_up_previous_content utc 1704110460000000000 "new".toList "edit".toList
    1704110400000000000 false oneBackup rfl (by decide)

/-! ## Backups made and backups swept -/

theorem mem_of_findBackup (name : List Char) (fs : FS) (e : FileInfo)
    (h : findBackup name fs = some e) : e ∈ fs.backups.getD [] := by
  unfold findBackup at h
  cases hb : fs.backups with
  | none => rw [hb] at h; exact Option.noConfusion h
  | some es =>
    rw [hb] at h
    exact List.mem_of_find?_eq_some h

/-- A fault-free `GET /` over an existing document shows the content of the document, when
the listing of the backups does not panic. -/
theorem rootGet_content (zone : Zone) (now : Int) (fs : FS) (d : Document)
    (hdoc : fs.notes = some d) (r : Response)
    (h : (rootGet zone noFaults now fs).2 = some r) :
    ∃ lastModTime backupCount backupFiles,
      r = .editorPage d.content lastModTime backupCount backupFiles := by
  cases fs with
  | mk notes backups =>
    simp only at hdoc
    subst hdoc
    unfold rootGet at h
    have h1 : (statNotes noFaults.statNotes { notes := some d, backups := backups }).isNotExist
        = false := rfl
    have h2 : readNotes noFaults.readNotes { notes := some d, backups := backups }
        = some d.content := rfl
    dsimp only at h
    rw [h1] at h
    simp only [Bool.false_eq_true, if_false] at h
    rw [h2] at h
    dsimp only at h
    split at h
    · exact ⟨_, _, _, (Option.some.inj h).symm⟩
    · split at h
      · exact Option.noConfusion h
      · exact ⟨_, _, _, (Option.some.inj h).symm⟩

/-- Whatever fails, a save made when no document exists leaves the backup directory as it
is. -/
theorem rootPost_absent_backups (zone : Zone) (fl : Faults) (now : Int) (content : List Char)
    (xhr : Bool) (backups : Option (List FileInfo)) :
    (rootPost zone fl now content xhr { notes := none, backups := backups }).1.backups
      = backups := by
  have hw : ∀ fs1 : FS, (writeNotes fl.writeNotes now content fs1).backups = fs1.backups := by
    intro fs1
    unfold writeNotes
    split <;> rfl
  have hr : readNotes fl.readNotes { notes := none, backups := backups } = none := by
    unfold readNotes
    split <;> rfl
  unfold rootPost
  dsimp only
  rw [hr]
  dsimp only
  rw [ite_self]
  cases xhr <;> exact hw _

/-- C2: when no document exists, a save leaves the backup directory exactly as it was
(whatever fails) and, fault-free, the document reads back as exactly the saved content.  And a
save adds an entry to the backup directory only if a document existed (whatever fails) and,
fault-free, if and only if a document existed.  The backup directory is one whose entries are
older than the save, so that an added entry is told from the old ones. -/
theorem backup_iff_document_existed (zone : Zone) (now : Int) (content : List Char)
    (xhr : Bool) (fs : FS)
    (hold : ∀ e ∈ fs.backups.getD [], e.modTime < now)
    (hok : ∀ e ∈ fs.backups.getD [], e.name = backupName zone now → e.isDir = false) :
    (fs.notes = none →
      (∀ fl, (rootPost zone fl now content xhr fs).1.backups = fs.backups) ∧
      readNotes false (rootPost zone noFaults now content xhr fs).1 = some content ∧
      ∀ now1 r, (rootGet zone noFaults now1 (rootPost zone noFaults now content xhr fs).1).2
          = some r →
        ∃ lastModTime backupCount backupFiles,
          r = .editorPage content lastModTime backupCount backupFiles) ∧
    (∀ fl, (∃ e ∈ (rootPost zone fl now content xhr fs).1.backups.getD [],
        e ∉ fs.backups.getD []) → fs.notes ≠ none) ∧
    ((∃ e ∈ (rootPost zone noFaults now content xhr fs).1.backups.getD [],
        e ∉ fs.backups.getD []) ↔ fs.notes ≠ none) := by
  cases fs with
  | mk notes backups =>
    simp only at hold hok
    have honly : ∀ fl, (∃ e ∈ (rootPost zone fl now content xhr
        { notes := notes, backups := backups }).1.backups.getD [],
        e ∉ backups.getD []) → notes ≠ none := by
      rintro fl ⟨e, he, hne⟩ hn
      subst hn
      rw [rootPost_absent_backups] at he
      exact hne he
    refine ⟨?_, honly, ?_⟩
    · intro hn
      simp only at hn
      subst hn
      refine ⟨fun fl => rootPost_absent_backups zone fl now content xhr backups, ?_, ?_⟩
      · rw [rootPost_absent]; rfl
      · intro now1 r hr
        rw [rootPost_absent] at hr
        exact rootGet_content zone now1 _ { content := content, modTime := now } rfl r hr
    · constructor
      · exact honly noFaults
      · intro hn
        cases notes with
        | none => exact absurd rfl hn
        | some d =>
          cases d with
          | mk old m =>
            obtain ⟨rest, _, hstate⟩ :=
              rootPost_existing_state zone now old content m xhr backups hok
            rw [hstate]
            refine ⟨{ name := backupName zone now, isDir := false, modTime := now,
                      content := old }, ?_, ?_⟩
            · rw [Option.getD_some]
              exact List.mem_append_right _ (List.mem_singleton_self _)
            · intro hmem
              have := hold _ hmem
              simp only at this
              omega

/-- Instance of C2: the first save, over a backup directory left from before, adds nothing
to it; a save over the document of `oneBackup` adds an entry. -/
theorem backup_iff_document_existed_witness :
    ((∀ fl, (rootPost utc fl 1704112200000000000 "hello".toList false
          staleBackupNoDocument).1.backups = staleBackupNoDocument.backups) ∧
      readNotes false (rootPost utc noFaults 1704112200000000000 "hello".toList false
          staleBackupNoDocument).1 = some "hello".toList ∧
      ∀ now1 r, (rootGet utc noFaults now1 (rootPost utc noFaults 1704112200000000000
          "hello".toList false staleBackupNoDocument).1).2 = some r →
        ∃ lastModTime backupCount backupFiles,
          r = .editorPage "hello".toList lastModTime backupCount backupFiles) ∧
    (∃ e ∈ (rootPost utc noFaults 1704110460000000000 "edit".toList false
          oneBackup).1.backups.getD [], e ∉ oneBackup.backups.getD []) :=
  ⟨(backup_iff_document_existed utc 1704112200000000000 "hello".toList false
      staleBackupNoDocument (by decide) (by decide)).1 rfl,
   (backup_iff_document_existed utc 1704110460000000000 "edit".toList false oneBackup
      (by decide) (by decide)).2.2.mpr (by decide)⟩

/-- In a directory without duplicate names, looking up the name of an entry after the sweep
finds the entry itself unless the sweep deleted it. -/
theorem find_after_sweep (cutoffTime : Int) (l : List FileInfo)
    (hnd : (l.map FileInfo.name).Nodup) (e : FileInfo) (he : e ∈ l) :
    (l.filter (kept noFaults cutoffTime (sortByName l))).find? (fun x => x.name == e.name)
      = if removed noFaults cutoffTime e = true then none else some e := by
  have hinj := List.inj_on_of_nodup_map hnd
  by_cases hr : removed noFaults cutoffTime e = true
  · rw [if_pos hr, List.find?_eq_none]
    intro x hx hname
    rw [List.mem_filter, kept_iff] at hx
    have hxe : x = e := hinj hx.1 he (by simpa using hname)
    subst hxe
    exact hx.2 x ((mem_sortByName l x).mpr he) hr rfl
  · rw [if_neg hr]
    have hk : kept noFaults cutoffTime (sortByName l) e = true := by
      rw [kept_iff]
      intro f hf hrf heq
      have hfe : f = e := hinj ((mem_sortByName l f).mp hf) he heq.symm
      subst hfe
      exact hr hrf
    have hmem : e ∈ l.filter (kept noFaults cutoffTime (sortByName l)) :=
      List.mem_filter.mpr ⟨he, hk⟩
    cases hf : (l.filter (kept noFaults cutoffTime (sortByName l))).find?
        (fun x => x.name == e.name) with
    | none =>
      rw [List.find?_eq_none] at hf
      exact absurd (by simp) (hf e hmem)
    | some x =>
      have hx := List.mem_of_find?_eq_some hf
      have hxn := List.find?_some hf
      have hxe : x = e := hinj (List.mem_filter.mp hx).1 he (by simpa using hxn)
      rw [hxe]

/-- C3, as stated, fails in three ways.  A save made when no document exists sweeps nothing:
the backup of 10:00:00 is still there after a save at 12:30:00.  A subdirectory older than one
hour is not deleted.  And an entry younger than one hour that has the name of the backup being
written (same second) has its content replaced. -/
theorem sweep_exceptions :
    (1704112200000000000 - 1704103200000000000 > hour ∧
      findBackup "notes_20240101_100000.bak".toList
        (rootPost utc noFaults 1704112200000000000 "hello".toList false
          staleBackupNoDocument).1
      = some { name := "notes_20240101_100000.bak".toList, isDir := false,
               modTime := 1704103200000000000, content := "v0".toList }) ∧
    (1704112200000000000 - 1704103200000000000 > hour ∧
      findBackup "archive".toList
        (rootPost utc noFaults 1704112200000000000 "c".toList false staleDirectory).1
      = some { name := "archive".toList, isDir := true,
               modTime := 1704103200000000000, content := [] }) ∧
    (1704112200500000000 - 1704112200000000000 ≤ hour ∧
      findBackup "notes_20240101_123000.bak".toList sameSecondBackup
      = some { name := "notes_20240101_123000.bak".toList, isDir := false,
               modTime := 1704112200000000000, content := "a".toList } ∧
      findBackup "notes_20240101_123000.bak".toList
        (rootPost utc noFaults 1704112200500000000 "c".toList false sameSecondBackup).1
      = some { name := "notes_20240101_123000.bak".toList, isDir := false,
               modTime := 1704112200500000000, content := "b".toList }) := by
  decide

/-- C3, amended: for a fault-free save made when the document exists, and an entry of the
backup directory (a directory without duplicate names) whose name is not the name of the
backup being written: a file older than one hour is absent after the save, a file of age at
most one hour is still present and unchanged, and a directory is still present. -/
theorem sweep_on_save (zone : Zone) (now : Int) (old content : List Char) (m : Int)
    (xhr : Bool) (fs : FS) (es : List FileInfo) (e : FileInfo)
    (hdoc : fs.notes = some { content := old, modTime := m })
    (hb : fs.backups = some es) (hnd : (es.map FileInfo.name).Nodup)
    (he : e ∈ es) (hname : e.name ≠ backupName zone now) :
    (e.isDir = false → now - e.modTime > hour →
      findBackup e.name (rootPost zone noFaults now content xhr fs).1 = none) ∧
    (e.isDir = false → now - e.modTime ≤ hour →
      findBackup e.name (rootPost zone noFaults now content xhr fs).1 = some e) ∧
    (e.isDir = true →
      findBackup e.name (rootPost zone noFaults now content xhr fs).1 = some e) := by
  cases fs with
  | mk notes backups =>
    simp only at hdoc hb
    subst hdoc hb
    rw [rootPost_existing]
    have hwb : ∃ l, (writeBackup false now (backupName zone now) old (mkdirAllBackups false
        { notes := some { content := old, modTime := m }, backups := some es })).backups
          = some l ∧ (l.map FileInfo.name).Nodup ∧ e ∈ l := by
      by_cases hany : es.any (fun x => x.name == backupName zone now && x.isDir) = true
      · refine ⟨es, ?_, hnd, he⟩
        simp only [mkdirAllBackups, writeBackup, Bool.false_eq_true, if_false, hany, if_true]
      · refine ⟨es.filter (fun x => x.name != backupName zone now) ++
          [{ name := backupName zone now, isDir := false, modTime := now, content := old }],
          ?_, ?_, ?_⟩
        · simp only [mkdirAllBackups, writeBackup, Bool.false_eq_true, if_false, hany]
        · rw [List.map_append, List.nodup_append]
          refine ⟨(List.Nodup.sublist ((List.filter_sublist es).map _) hnd),
            List.nodup_singleton _, ?_⟩
          intro a ha hb
          simp only [List.map_cons, List.map_nil, List.mem_singleton] at hb
          rw [List.mem_map] at ha
          obtain ⟨x, hx, hxa⟩ := ha
          have := (List.mem_filter.mp hx).2
          rw [hxa, hb] at this
          simp at this
        · rw [List.mem_append]
          left
          exact List.mem_filter.mpr ⟨he, by simpa [bne_iff_ne] using hname⟩
    obtain ⟨l, hl, hlnd, hel⟩ := hwb
    rw [hl]
    have hfind := find_after_sweep (now - hour) l hlnd e hel
    have hfb : findBackup e.name
        { notes := some { content := content, modTime := now },
          backups := Option.map (fun l => l.filter (kept noFaults (now - hour) (sortByName l)))
            (some l) }
        = if removed noFaults (now - hour) e = true then none else some e := hfind
    rw [hfb]
    have hrem : removed noFaults (now - hour) e
        = (!e.isDir && decide (e.modTime < now - hour)) := by
      unfold removed
      have : noFaults.remove e.name = false := rfl
      rw [this]
      simp
    rw [hrem]
    refine ⟨?_, ?_, ?_⟩
    · intro hd hage
      have : decide (e.modTime < now - hour) = true := by
        rw [decide_eq_true_eq]; omega
      rw [hd, this]
      rfl
    · intro hd hage
      have : decide (e.modTime < now - hour) = false := by
        rw [decide_eq_false_iff_not]; omega
      rw [hd, this]
      rfl
    · intro hd
      rw [hd]
      rfl

/-- Instance of the amended C3: a save at 12:30:00 removes the backup of 10:00:00 and keeps
the backup of 12:00:00. -/
theorem sweep_on_save_witness :
    findBackup "notes_20240101_100000.bak".toList
        (rootPost utc noFaults 1704112200000000000 "c".toList false oldAndFreshBackups).1
      = none ∧
    findBackup "notes_20240101_120000.bak".toList
        (rootPost utc noFaults 1704112200000000000 "c".toList false oldAndFreshBackups).1
      = some { name := "notes_20240101_120000.bak".toList, isDir := false,
               modTime := 1704110400000000000, content := "a".toList } :=
  ⟨(sweep_on_save utc 1704112200000000000 "b".toList "c".toList 1704110400000000000 false
      oldAndFreshBackups _
      { name := "notes_20240101_100000.bak".toList, isDir := false,
        modTime := 1704103200000000000, content := "v0".toList }
      rfl rfl (by decide) (by decide) (by decide)).1 rfl (by decide),
   (sweep_on_save utc 1704112200000000000 "b".toList "c".toList 1704110400000000000 false
      oldAndFreshBackups _
      { name := "notes_20240101_120000.bak".toList, isDir := false,
        modTime := 1704110400000000000, content := "a".toList }
      rfl rfl (by decide) (by decide) (by decide)).2.1 rfl (by decide)⟩

/-! ## The order of file names -/

theorem strLt_cons (x y : Char) (r s : List Char) :
    strLt (x :: r) (y :: s) = true ↔
      x.toNat < y.toNat ∨ (x.toNat = y.toNat ∧ strLt r s = true) := by
  simp only [strLt, Bool.or_eq_true, Bool.and_eq_true, decide_eq_true_eq]

theorem strLt_irrefl (a : List Char) : strLt a a = false := by
  induction a with
  | nil => rfl
  | cons x r ih =>
    cases h : strLt (x :: r) (x :: r)
    · rfl
    · rw [strLt_cons] at h
      rcases h with h | ⟨_, h⟩
      · omega
      · rw [ih] at h; exact Bool.noConfusion h

theorem strLt_asymm (a b : List Char) (h : strLt a b = true) : strLt b a = false := by
  induction a generalizing b with
  | nil =>
    cases b with
    | nil => rfl
    | cons y s => rfl
  | cons x r ih =>
    cases b with
    | nil => exact Bool.noConfusion h
    | cons y s =>
      cases h2 : strLt (y :: s) (x :: r)
      · rfl
      · rw [strLt_cons] at h h2
        rcases h with h | ⟨he, h⟩
        · rcases h2 with h2 | ⟨h2, _⟩ <;> omega
        · rcases h2 with h2 | ⟨_, h2⟩
          · omega
          · rw [ih s h] at h2; exact Bool.noConfusion h2

/-- If `c` sorts before `a`, then any `b` sorts after `c` or before `a`. -/
theorem strLt_split (c a b : List Char) (h : strLt c a = true) :
    strLt c b = true ∨ strLt b a = true := by
  induction c generalizing a b with
  | nil =>
    cases a with
    | nil => exact Bool.noConfusion h
    | cons x r =>
      cases b with
      | nil => right; rfl
      | cons y s => left; rfl
  | cons z t ih =>
    cases a with
    | nil => exact Bool.noConfusion h
    | cons x r =>
      cases b with
      | nil => right; rfl
      | cons y s =>
        rw [strLt_cons] at h
        rw [strLt_cons, strLt_cons]
        rcases h with h | ⟨he, h⟩
        · by_cases hzy : z.toNat < y.toNat
          · left; left; exact hzy
          · right; left; omega
        · by_cases hzy : z.toNat < y.toNat
          · left; left; exact hzy
          · by_cases hyz : y.toNat < z.toNat
            · right; left; omega
            · have heq : z.toNat = y.toNat := by omega
              rcases ih r s h with h3 | h3
              · left; right; exact ⟨heq, h3⟩
              · right; right; exact ⟨by omega, h3⟩

theorem strLt_trans (a b c : List Char) (h1 : strLt a b = true) (h2 : strLt b c = true) :
    strLt a c = true := by
  rcases strLt_split a b c h1 with h | h
  · exact h
  · rw [strLt_asymm b c h2] at h; exact Bool.noConfusion h

theorem nameLe_total (a b : FileInfo) : nameLe a b ∨ nameLe b a := by
  unfold nameLe
  cases h : strLt b.name a.name
  · left; rfl
  · right; exact strLt_asymm _ _ h

theorem nameLe_trans (a b c : FileInfo) (hab : nameLe a b) (hbc : nameLe b c) : nameLe a c := by
  unfold nameLe at *
  cases h : strLt c.name a.name
  · rfl
  · rcases strLt_split _ _ b.name h with h3 | h3
    · rw [hbc] at h3; exact Bool.noConfusion h3
    · rw [hab] at h3; exact Bool.noConfusion h3

theorem sortByName_sorted (es : List FileInfo) : (sortByName es).Sorted nameLe := by
  haveI : IsTotal FileInfo nameLe := ⟨nameLe_total⟩
  haveI : IsTrans FileInfo nameLe := ⟨nameLe_trans⟩
  exact List.sorted_insertionSort nameLe es

/-- A listing whose names already ascend is its own sorted listing. -/
theorem sortByName_of_sorted (es : List FileInfo)
    (h : es.Pairwise (fun a b => strLt a.name b.name = true)) : sortByName es = es := by
  apply List.Sorted.insertionSort_eq
  exact h.imp (fun {a b} hab => strLt_asymm _ _ hab)

/-! ## The calendar -/

theorem stageEra (a b : Int) (h : a < b) :
    a / 146097 < b / 146097 ∨ (a / 146097 = b / 146097 ∧ a % 146097 < b % 146097) := by omega

theorem stageCent (a b : Int) (h : a < b) (h1 : b < 146097) :
    min (a / 36524) 3 < min (b / 36524) 3 ∨
      (min (a / 36524) 3 = min (b / 36524) 3 ∧
        a - min (a / 36524) 3 * 36524 < b - min (b / 36524) 3 * 36524) := by omega

theorem boundCent (a : Int) (h0 : 0 ≤ a) (h1 : a < 146097) :
    0 ≤ min (a / 36524) 3 ∧ min (a / 36524) 3 ≤ 3 ∧ 0 ≤ a - min (a / 36524) 3 * 36524 ∧
      a - min (a / 36524) 3 * 36524 ≤ 36524 := by omega

theorem stageQuad (a b : Int) (h : a < b) :
    a / 1461 < b / 1461 ∨ (a / 1461 = b / 1461 ∧ a % 1461 < b % 1461) := by omega

theorem boundQuad (a : Int) (h0 : 0 ≤ a) (h1 : a ≤ 36524) :
    0 ≤ a / 1461 ∧ a / 1461 ≤ 24 ∧ 0 ≤ a % 1461 ∧ a % 1461 < 1461 := by omega

theorem stageYr (a b : Int) (h : a < b) (h1 : b < 1461) :
    min (a / 365) 3 < min (b / 365) 3 ∨
      (min (a / 365) 3 = min (b / 365) 3 ∧
        a - min (a / 365) 3 * 365 < b - min (b / 365) 3 * 365) := by omega

theorem boundYr (a : Int) (h0 : 0 ≤ a) (h1 : a < 1461) :
    0 ≤ min (a / 365) 3 ∧ min (a / 365) 3 ≤ 3 ∧ 0 ≤ a - min (a / 365) 3 * 365 ∧
      a - min (a / 365) 3 * 365 ≤ 365 := by omega

theorem stageMonth (a b : Int) (h : a < b) :
    (5 * a + 2) / 153 < (5 * b + 2) / 153 ∨
      ((5 * a + 2) / 153 = (5 * b + 2) / 153 ∧
        a - (153 * ((5 * a + 2) / 153) + 2) / 5 + 1
          < b - (153 * ((5 * b + 2) / 153) + 2) / 5 + 1) := by omega

theorem boundMonth (a : Int) (h0 : 0 ≤ a) (h1 : a ≤ 365) :
    0 ≤ (5 * a + 2) / 153 ∧ (5 * a + 2) / 153 ≤ 11 ∧
    1 ≤ a - (153 * ((5 * a + 2) / 153) + 2) / 5 + 1 ∧
    a - (153 * ((5 * a + 2) / 153) + 2) / 5 + 1 ≤ 31 := by omega

/-- Lexicographic combination of the four cycle stages. -/
theorem combine_stages (ea eb da db ca cb ra rb qa qb ta tb ya yb na nb : Int)
    (hE : ea < eb ∨ (ea = eb ∧ da < db))
    (hC : da < db → ca < cb ∨ (ca = cb ∧ ra < rb))
    (hQ : ra < rb → qa < qb ∨ (qa = qb ∧ ta < tb))
    (hY : ta < tb → ya < yb ∨ (ya = yb ∧ na < nb))
    (hca : 0 ≤ ca ∧ ca ≤ 3) (hcb : 0 ≤ cb ∧ cb ≤ 3)
    (hqa : 0 ≤ qa ∧ qa ≤ 24) (hqb : 0 ≤ qb ∧ qb ≤ 24)
    (hya : 0 ≤ ya ∧ ya ≤ 3) (hyb : 0 ≤ yb ∧ yb ≤ 3) :
    ea * 400 + ca * 100 + qa * 4 + ya < eb * 400 + cb * 100 + qb * 4 + yb ∨
      (ea * 400 + ca * 100 + qa * 4 + ya = eb * 400 + cb * 100 + qb * 4 + yb ∧ na < nb) := by
  rcases hE with hE | ⟨hE, hd⟩
  · left; omega
  · rcases hC hd with hC | ⟨hC, hr⟩
    · left; omega
    · rcases hQ hr with hQ | ⟨hQ, ht⟩
      · left; omega
      · rcases hY ht with hY | ⟨hY, hn⟩
        · left; omega
        · right; omega

theorem marchYearDay_bound (a : Int) :
    0 ≤ (marchYearDay a).2 ∧ (marchYearDay a).2 ≤ 365 := by
  have hd : 0 ≤ (a + 719468) % 146097 ∧ (a + 719468) % 146097 < 146097 := by omega
  have hc := boundCent _ hd.1 hd.2
  have hq := boundQuad _ hc.2.2.1 hc.2.2.2
  have hy := boundYr _ hq.2.2.1 hq.2.2.2
  exact ⟨hy.2.2.1, hy.2.2.2⟩

theorem marchYearDay_mono (a b : Int) (h : a < b) :
    (marchYearDay a).1 < (marchYearDay b).1 ∨
      ((marchYearDay a).1 = (marchYearDay b).1 ∧ (marchYearDay a).2 < (marchYearDay b).2) := by
  have hda : 0 ≤ (a + 719468) % 146097 ∧ (a + 719468) % 146097 < 146097 := by omega
  have hdb : 0 ≤ (b + 719468) % 146097 ∧ (b + 719468) % 146097 < 146097 := by omega
  have hca := boundCent _ hda.1 hda.2
  have hcb := boundCent _ hdb.1 hdb.2
  have hqa := boundQuad _ hca.2.2.1 hca.2.2.2
  have hqb := boundQuad _ hcb.2.2.1 hcb.2.2.2
  have hya := boundYr _ hqa.2.2.1 hqa.2.2.2
  have hyb := boundYr _ hqb.2.2.1 hqb.2.2.2
  exact combine_stages _ _ _ _ _ _ _ _ _ _ _ _ _ _ _ _
    (stageEra (a + 719468) (b + 719468) (by omega))
    (fun hd => stageCent _ _ hd hdb.2)
    (fun hr => stageQuad _ _ hr)
    (fun ht => stageYr _ _ ht hqb.2.2.2)
    ⟨hca.1, hca.2.1⟩ ⟨hcb.1, hcb.2.1⟩ ⟨hqa.1, hqa.2.1⟩ ⟨hqb.1, hqb.2.1⟩
    ⟨hya.1, hya.2.1⟩ ⟨hyb.1, hyb.2.1⟩

/-- Year shift and month of a day of the March year. -/
theorem combine_month (ya yb pa pb da db : Int)
    (hY : ya < yb ∨ (ya = yb ∧ (pa < pb ∨ (pa = pb ∧ da < db))))
    (hpa : 0 ≤ pa ∧ pa ≤ 11) (hpb : 0 ≤ pb ∧ pb ≤ 11) :
    (if (if pa < 10 then pa + 3 else pa - 9) ≤ 2 then ya + 1 else ya)
        < (if (if pb < 10 then pb + 3 else pb - 9) ≤ 2 then yb + 1 else yb) ∨
      ((if (if pa < 10 then pa + 3 else pa - 9) ≤ 2 then ya + 1 else ya)
          = (if (if pb < 10 then pb + 3 else pb - 9) ≤ 2 then yb + 1 else yb) ∧
        ((if pa < 10 then pa + 3 else pa - 9) < (if pb < 10 then pb + 3 else pb - 9) ∨
          ((if pa < 10 then pa + 3 else pa - 9) = (if pb < 10 then pb + 3 else pb - 9) ∧
            da < db))) := by
  split_ifs <;> omega

theorem civilFromDays_mono (a b : Int) (h : a < b) :
    (civilFromDays a).1 < (civilFromDays b).1 ∨
      ((civilFromDays a).1 = (civilFromDays b).1 ∧
        ((civilFromDays a).2.1 < (civilFromDays b).2.1 ∨
          ((civilFromDays a).2.1 = (civilFromDays b).2.1 ∧
            (civilFromDays a).2.2 < (civilFromDays b).2.2))) := by
  have ha := marchYearDay_bound a
  have hb := marchYearDay_bound b
  have hma := boundMonth _ ha.1 ha.2
  have hmb := boundMonth _ hb.1 hb.2
  have hm := marchYearDay_mono a b h
  unfold civilFromDays
  dsimp only
  apply combine_month
  · rcases hm with hm | ⟨hm, hd⟩
    · left; exact hm
    · right; exact ⟨hm, stageMonth _ _ hd⟩
  · exact ⟨hma.1, hma.2.1⟩
  · exact ⟨hmb.1, hmb.2.1⟩

/-- The ranges of month and day. -/
theorem civilFromDays_bound (a : Int) :
    1 ≤ (civilFromDays a).2.1 ∧ (civilFromDays a).2.1 ≤ 12 ∧
    1 ≤ (civilFromDays a).2.2 ∧ (civilFromDays a).2.2 ≤ 31 := by
  have ha := marchYearDay_bound a
  have hma := boundMonth _ ha.1 ha.2
  unfold civilFromDays
  dsimp only
  refine ⟨?_, ?_, hma.2.2.1, hma.2.2.2⟩
  · split_ifs <;> omega
  · split_ifs <;> omega

/-- The calendar fields ascend with the seconds. -/
theorem civilOf_mono (s t : Int) (h : s < t) : (civilOf s).lt (civilOf t) := by
  have hd : s / 86400 < t / 86400 ∨ (s / 86400 = t / 86400 ∧ s % 86400 < t % 86400) := by
    omega
  unfold Civil.lt civilOf
  dsimp only
  rcases hd with hd | ⟨hd, hs⟩
  · rcases civilFromDays_mono _ _ hd with h1 | ⟨h1, h2 | ⟨h2, h3⟩⟩
    · left; exact h1
    · right; exact ⟨h1, Or.inl h2⟩
    · right; exact ⟨h1, Or.inr ⟨h2, Or.inl h3⟩⟩
  · rw [hd]
    right; refine ⟨rfl, Or.inr ⟨rfl, Or.inr ⟨rfl, ?_⟩⟩⟩
    omega

/-- The ranges of the calendar fields other than the year. -/
theorem civilOf_bound (s : Int) :
    (1 ≤ (civilOf s).month ∧ (civilOf s).month ≤ 12) ∧
    (1 ≤ (civilOf s).day ∧ (civilOf s).day ≤ 31) ∧
    (0 ≤ (civilOf s).hh ∧ (civilOf s).hh ≤ 23) ∧
    (0 ≤ (civilOf s).mm ∧ (civilOf s).mm ≤ 59) ∧
    (0 ≤ (civilOf s).ss ∧ (civilOf s).ss ≤ 59) := by
  have h := civilFromDays_bound (s / 86400)
  unfold civilOf
  dsimp only
  refine ⟨⟨h.1, h.2.1⟩, ⟨h.2.2.1, h.2.2.2⟩, ?_, ?_, ?_⟩ <;> omega

/-! ## The order of time stamps -/

theorem digit_toNat (n : Int) : (digit n).toNat = 48 + (n % 10).toNat := by
  unfold digit
  have h : (n % 10).toNat < 10 := by omega
  generalize (n % 10).toNat = k at h
  interval_cases k <;> rfl

theorem strLt_pad2 (a b : Int) (ha : 0 ≤ a ∧ a < 100) (hb : 0 ≤ b ∧ b < 100)
    (r s : List Char) :
    strLt (pad2 a ++ r) (pad2 b ++ s) = true ↔ a < b ∨ (a = b ∧ strLt r s = true) := by
  unfold pad2
  simp only [List.cons_append, List.nil_append, strLt_cons, digit_toNat]
  constructor
  · rintro (h | ⟨h1, h | ⟨h2, h3⟩⟩)
    · left; omega
    · left; omega
    · right; exact ⟨by omega, h3⟩
  · rintro (h | ⟨h1, h2⟩)
    · by_cases ht : a / 10 % 10 < b / 10 % 10
      · left; omega
      · right; exact ⟨by omega, Or.inl (by omega)⟩
    · right; exact ⟨by omega, Or.inr ⟨by omega, h2⟩⟩

theorem strLt_pad4 (a b : Int) (ha : 0 ≤ a ∧ a < 10000) (hb : 0 ≤ b ∧ b < 10000)
    (r s : List Char) :
    strLt (pad4 a ++ r) (pad4 b ++ s) = true ↔ a < b ∨ (a = b ∧ strLt r s = true) := by
  have e : ∀ x : Int, pad4 x ++ r = pad2 (x / 100) ++ (pad2 x ++ r) := by
    intro x
    unfold pad4 pad2
    have h1 : x / 100 / 10 = x / 1000 := by omega
    rw [h1]
    rfl
  have e' : ∀ x : Int, pad4 x ++ s = pad2 (x / 100) ++ (pad2 x ++ s) := by
    intro x
    unfold pad4 pad2
    have h1 : x / 100 / 10 = x / 1000 := by omega
    rw [h1]
    rfl
  have low : ∀ x : Int, pad2 x = pad2 (x % 100) := by
    intro x
    unfold pad2 digit
    have h1 : x % 100 / 10 % 10 = x / 10 % 10 := by omega
    have h2 : x % 100 % 10 = x % 10 := by omega
    rw [h1, h2]
  rw [e, e', low a, low b, strLt_pad2 (a / 100) (b / 100) (by omega) (by omega),
    strLt_pad2 (a % 100) (b % 100) (by omega) (by omega)]
  constructor
  · rintro (h | ⟨h1, h | ⟨h2, h3⟩⟩)
    · left; omega
    · left; omega
    · right; exact ⟨by omega, h3⟩
  · rintro (h | ⟨h1, h2⟩)
    · by_cases ht : a / 100 < b / 100
      · left; exact ht
      · right; exact ⟨by omega, Or.inl (by omega)⟩
    · right; exact ⟨by omega, Or.inr ⟨by omega, h2⟩⟩

theorem appendInt4_of_four_digits (y : Int) (h : 0 ≤ y ∧ y ≤ 9999) : appendInt4 y = pad4 y := by
  unfold appendInt4
  have h1 : ¬ y < 0 := by omega
  have h2 : y.natAbs < 10000 := by omega
  have h3 : (y.natAbs : Int) = y := Int.natAbs_of_nonneg h.1
  rw [if_neg h1, if_pos h2, h3]
  rfl

/-- With four-digit years, backup names compare as their calendar fields. -/
theorem strLt_stamp_iff (c1 c2 : Civil) (h1 : c1.inRange) (h2 : c2.inRange) :
    strLt ("notes_".toList ++ formatStamp c1 ++ ".bak".toList)
        ("notes_".toList ++ formatStamp c2 ++ ".bak".toList) = true ↔ c1.lt c2 := by
  obtain ⟨hy1, hm1, hd1, hh1, hn1, hs1⟩ := h1
  obtain ⟨hy2, hm2, hd2, hh2, hn2, hs2⟩ := h2
  have hpre : ∀ r s : List Char,
      strLt ("notes_".toList ++ r) ("notes_".toList ++ s) = true ↔ strLt r s = true := by
    intro r s
    show strLt ('n' :: 'o' :: 't' :: 'e' :: 's' :: '_' :: r)
      ('n' :: 'o' :: 't' :: 'e' :: 's' :: '_' :: s) = true ↔ _
    simp only [strLt_cons, lt_self_iff_false, true_and, false_or]
  have hus : ∀ r s : List Char, strLt (['_'] ++ r) (['_'] ++ s) = true ↔ strLt r s = true := by
    intro r s
    show strLt ('_' :: r) ('_' :: s) = true ↔ _
    simp only [strLt_cons, lt_self_iff_false, true_and, false_or]
  have hend : ∀ x : List Char, strLt x x = true ↔ False := by
    intro x; rw [strLt_irrefl]; simp
  unfold formatStamp Civil.lt
  rw [appendInt4_of_four_digits _ hy1, appendInt4_of_four_digits _ hy2]
  simp only [List.append_assoc]
  rw [hpre, strLt_pad4 _ _ (by omega) (by omega), strLt_pad2 _ _ hm1 hm2,
    strLt_pad2 _ _ hd1 hd2, hus, strLt_pad2 _ _ hh1 hh2, strLt_pad2 _ _ hn1 hn2,
    strLt_pad2 _ _ hs1 hs2, hend]
  simp only [and_false, or_false]

theorem civilOf_inRange (s : Int)
    (hy : 0 ≤ (civilOf s).year ∧ (civilOf s).year ≤ 9999) : (civilOf s).inRange := by
  have h := civilOf_bound s
  refine ⟨hy, ?_, ?_, ?_, ?_, ?_⟩ <;> omega

/-- Between two instants whose local calendar years have four digits, the backup name of the
earlier second on the local wall clock sorts before that of the later one. -/
theorem backupName_lt (zone : Zone) (t1 t2 : Int)
    (hy1 : 0 ≤ (civilOf (localSec zone t1)).year ∧ (civilOf (localSec zone t1)).year ≤ 9999)
    (hy2 : 0 ≤ (civilOf (localSec zone t2)).year ∧ (civilOf (localSec zone t2)).year ≤ 9999)
    (h : localSec zone t1 < localSec zone t2) :
    strLt (backupName zone t1) (backupName zone t2) = true := by
  unfold backupName
  rw [strLt_stamp_iff _ _ (civilOf_inRange _ hy1) (civilOf_inRange _ hy2)]
  exact civilOf_mono _ _ h

/-- Under one zone offset the local wall clock ascends with the Unix seconds. -/
theorem localSec_lt (zone : Zone) (off : Int) (t1 t2 : Int)
    (hz1 : zone (unixSec t1) = off) (hz2 : zone (unixSec t2) = off) :
    localSec zone t1 < localSec zone t2 ↔ unixSec t1 < unixSec t2 := by
  unfold localSec
  rw [hz1, hz2]
  omega

/-- A backup name has 25 bytes when the year has four digits. -/
theorem backupName_length (zone : Zone) (t : Int)
    (hy : 0 ≤ (civilOf (localSec zone t)).year ∧ (civilOf (localSec zone t)).year ≤ 9999) :
    (backupName zone t).length = 25 := by
  unfold backupName formatStamp
  rw [appendInt4_of_four_digits _ hy]
  rfl

/-- A backup name ends in `.bak`. -/
theorem backupName_suffix (zone : Zone) (t : Int) :
    HasSuffix (backupName zone t) ".bak".toList = true := by
  rw [HasSuffix_iff]
  exact ⟨_, rfl⟩

/-! ## The listing of `GET /` -/

/-- The loop over the entries yields one option per backup file, in the order of the loop,
when no label computation panics. -/
theorem backupOptions_of_labels (l : List FileInfo)
    (h : ∀ f ∈ l, isBackupFile f = true → listLabel f.name ≠ none) :
    ∃ opts, backupOptions l = some opts ∧
      opts.map BackupOption.value = (l.filter isBackupFile).map FileInfo.name ∧
      ∀ o ∈ opts, listLabel o.value = some o.label := by
  induction l with
  | nil => exact ⟨[], rfl, rfl, fun o ho => absurd ho (List.not_mem_nil o)⟩
  | cons f rest ih =>
    obtain ⟨opts, ho, hv, hl⟩ := ih (fun g hg => h g (List.mem_cons_of_mem f hg))
    by_cases hf : isBackupFile f = true
    · obtain ⟨lab, hlab⟩ := Option.ne_none_iff_exists'.mp (h f (List.mem_cons_self f rest) hf)
      refine ⟨{ value := f.name, label := lab } :: opts, ?_, ?_, ?_⟩
      · have hf' : (!f.isDir && HasSuffix f.name ".bak".toList) = true := hf
        unfold backupOptions
        rw [if_pos hf', hlab, ho]
        rfl
      · rw [List.filter_cons_of_pos hf, List.map_cons, List.map_cons, hv]
      · intro o ho'
        rcases List.mem_cons.mp ho' with h1 | h1
        · rw [h1]; exact hlab
        · exact hl o h1
    · refine ⟨opts, ?_, ?_, hl⟩
      · have hf' : ¬ (!f.isDir && HasSuffix f.name ".bak".toList) = true := hf
        unfold backupOptions
        rw [if_neg hf', ho]
      · rw [List.filter_cons_of_neg hf, hv]

/-- A fault-free `GET /` over a backup directory yields the editor page with the options
that the loop computes from the reversed sorted listing. -/
theorem rootGet_listing (zone : Zone) (now : Int) (fs : FS) (es : List FileInfo)
    (opts : List BackupOption) (hb : fs.backups = some es)
    (ho : backupOptions (sortByName es).reverse = some opts) :
    ∃ content lastModTime,
      (rootGet zone noFaults now fs).2
        = some (.editorPage content lastModTime es.length opts) := by
  have hlen : (sortByName es).length = es.length := List.length_insertionSort nameLe es
  cases fs with
  | mk notes backups =>
    simp only at hb
    subst hb
    cases notes with
    | none =>
      refine ⟨[], formatModTime (civilOf (localSec zone now)), ?_⟩
      unfold rootGet
      have h1 : (statNotes noFaults.statNotes { notes := none, backups := some es }).isNotExist
          = true := rfl
      dsimp only
      rw [if_pos h1]
      have h2 : readNotes noFaults.readNotes
          (writeNotes noFaults.writeNotes now [] { notes := none, backups := some es })
            = some [] := rfl
      have h3 : readDir noFaults.readDir
          (writeNotes noFaults.writeNotes now [] { notes := none, backups := some es })
            = some (sortByName es) := rfl
      rw [h2]
      dsimp only
      rw [h3]
      dsimp only
      rw [ho, hlen]
      rfl
    | some d =>
      refine ⟨d.content, formatModTime (civilOf (localSec zone d.modTime)), ?_⟩
      unfold rootGet
      have h1 : ¬ (statNotes noFaults.statNotes
          { notes := some d, backups := some es }).isNotExist = true := by
        intro h; exact Bool.noConfusion h
      dsimp only
      rw [if_neg h1]
      have h2 : readNotes noFaults.readNotes { notes := some d, backups := some es }
          = some d.content := rfl
      have h3 : readDir noFaults.readDir { notes := some d, backups := some es }
          = some (sortByName es) := rfl
      rw [h2]
      dsimp only
      rw [h3]
      dsimp only
      rw [ho, hlen]
      rfl

/-- In a directory of backups written at distinct wall-clock seconds of four-digit years, the
sorted listing ascends in wall-clock time. -/
theorem sorted_listing_ascends (zone : Zone) (es : List FileInfo)
    (hsave : ∀ e ∈ es, e.name = backupName zone e.modTime)
    (hyear : ∀ e ∈ es, 0 ≤ (civilOf (localSec zone e.modTime)).year ∧
      (civilOf (localSec zone e.modTime)).year ≤ 9999)
    (hsec : es.Pairwise (fun a b => localSec zone a.modTime ≠ localSec zone b.modTime)) :
    (sortByName es).Pairwise
      (fun a b => localSec zone a.modTime < localSec zone b.modTime) := by
  have hperm : (sortByName es).Perm es := List.perm_insertionSort nameLe es
  have hsec' : (sortByName es).Pairwise
      (fun a b => localSec zone a.modTime ≠ localSec zone b.modTime) :=
    (hperm.pairwise_iff (fun {a b} h => Ne.symm h)).mpr hsec
  have hsorted : (sortByName es).Pairwise nameLe := sortByName_sorted es
  refine (hsorted.and hsec').imp_of_mem ?_
  intro a b ha hb hab
  have ha' := hperm.mem_iff.mp ha
  have hb' := hperm.mem_iff.mp hb
  by_contra hlt
  have hgt : localSec zone b.modTime < localSec zone a.modTime := by
    have := hab.2
    omega
  have := backupName_lt zone b.modTime a.modTime (hyear b hb') (hyear a ha') hgt
  rw [← hsave b hb', ← hsave a ha'] at this
  have hle : strLt b.name a.name = false := hab.1
  rw [hle] at this
  exact Bool.noConfusion this

/-- C8: the listing of `GET /` is to be newest first, as the comment on its loop says, but
where the zone offset changes it is not: in `newYork2024` the saves of 05:50:00 UTC and
06:10:00 UTC write `notes_20241103_015000.bak` and, twenty minutes later,
`notes_20241103_011000.bak`, at distinct seconds of a four-digit year, and the listing puts
the earlier backup first. -/
theorem listing_oldest_first_after_fall_back :
    backupName newYork2024 1730613000000000000 = "notes_20241103_015000.bak".toList ∧
    backupName newYork2024 1730614200000000000 = "notes_20241103_011000.bak".toList ∧
    (rootGet newYork2024 noFaults 1730614260000000000 fallBackBackups).2
      = some (.editorPage "v3".toList "2024-11-03 01:10:00".toList 2
          [{ value := "notes_20241103_015000.bak".toList,
             label := "Nov 3, 2024 at 01:50:00".toList },
           { value := "notes_20241103_011000.bak".toList,
             label := "Nov 3, 2024 at 01:10:00".toList }]) ∧
    (findBackup "notes_20241103_015000.bak".toList fallBackBackups).map FileInfo.modTime
      = some 1730613000000000000 ∧
    (findBackup "notes_20241103_011000.bak".toList fallBackBackups).map FileInfo.modTime
      = some 1730614200000000000 ∧
    (1730613000000000000 : Int) < 1730614200000000000 := by
  decide

/-- Where the listing is newest first.  For a backup directory whose entries were written by
saves at pairwise distinct wall-clock seconds in four-digit years, the listing of `GET /`
consists of exactly the non-directory entries whose name ends in `.bak` (here: all entries),
in the reverse of the name-sorted directory order; that order descends on the local wall
clock, and when all the saves were made under one zone offset it is strictly newest first. -/
theorem listing_newest_first (zone : Zone) (now : Int) (fs : FS)
    (es : List FileInfo) (hb : fs.backups = some es)
    (hsave : ∀ e ∈ es, e.isDir = false ∧ e.name = backupName zone e.modTime)
    (hyear : ∀ e ∈ es, 0 ≤ (civilOf (localSec zone e.modTime)).year ∧
      (civilOf (localSec zone e.modTime)).year ≤ 9999)
    (hsec : es.Pairwise (fun a b => localSec zone a.modTime ≠ localSec zone b.modTime)) :
    (∃ content lastModTime backupFiles,
      (rootGet zone noFaults now fs).2
        = some (.editorPage content lastModTime es.length backupFiles) ∧
      backupFiles.map BackupOption.value
        = ((sortByName es).reverse.filter isBackupFile).map FileInfo.name) ∧
    (sortByName es).reverse.filter isBackupFile = (sortByName es).reverse ∧
    (sortByName es).reverse.Pairwise
      (fun a b => localSec zone b.modTime < localSec zone a.modTime) ∧
    (∀ off, (∀ e ∈ es, zone (unixSec e.modTime) = off) →
      (sortByName es).reverse.Pairwise
        (fun a b => unixSec b.modTime < unixSec a.modTime)) := by
  have hperm : (sortByName es).Perm es := List.perm_insertionSort nameLe es
  have hmem : ∀ f ∈ (sortByName es).reverse, f ∈ es := by
    intro f hf
    exact hperm.mem_iff.mp (List.mem_reverse.mp hf)
  have hbak : ∀ f ∈ (sortByName es).reverse, isBackupFile f = true := by
    intro f hf
    have h := hsave f (hmem f hf)
    unfold isBackupFile
    rw [h.1, h.2, backupName_suffix]
    rfl
  have hlab : ∀ f ∈ (sortByName es).reverse, isBackupFile f = true →
      listLabel f.name ≠ none := by
    intro f hf _
    have h := hsave f (hmem f hf)
    rw [Ne, listLabel_eq_none_iff, h.2, backupName_length zone _ (hyear f (hmem f hf))]
    omega
  obtain ⟨opts, ho, hv, _⟩ := backupOptions_of_labels _ hlab
  obtain ⟨content, lastModTime, hget⟩ := rootGet_listing zone now fs es opts hb ho
  have hwall : (sortByName es).reverse.Pairwise
      (fun a b => localSec zone b.modTime < localSec zone a.modTime) := by
    rw [List.pairwise_reverse]
    exact sorted_listing_ascends zone es (fun e he => (hsave e he).2) hyear hsec
  refine ⟨⟨content, lastModTime, opts, hget, hv⟩, ?_, hwall, ?_⟩
  · exact List.filter_eq_self.mpr hbak
  · intro off hoff
    refine hwall.imp_of_mem ?_
    intro a b ha hb' hab
    exact (localSec_lt zone off _ _ (hoff b (hmem b hb')) (hoff a (hmem a ha))).mp hab

/-- The two backups of `twoBackups` in UTC: the listing shows the backup of 12:00:09 before
the backup of 12:00:05. -/
theorem listing_newest_first_witness :
    ((∃ content lastModTime backupFiles,
      (rootGet utc noFaults 1704110460000000000 twoBackups).2
        = some (.editorPage content lastModTime twoBackupEntries.length backupFiles) ∧
      backupFiles.map BackupOption.value
        = ((sortByName twoBackupEntries).reverse.filter isBackupFile).map FileInfo.name) ∧
    (sortByName twoBackupEntries).reverse.filter isBackupFile
      = (sortByName twoBackupEntries).reverse ∧
    (sortByName twoBackupEntries).reverse.Pairwise
      (fun a b => localSec utc b.modTime < localSec utc a.modTime)) ∧
    (sortByName twoBackupEntries).reverse.Pairwise
      (fun a b => unixSec b.modTime < unixSec a.modTime) ∧
    ((sortByName twoBackupEntries).reverse.filter isBackupFile).map FileInfo.name
      = ["notes_20240101_120009.bak".toList, "notes_20240101_120005.bak".toList] :=
  ⟨⟨(listing_newest_first utc 1704110460000000000 twoBackups twoBackupEntries rfl (by decide)
      (by decide) (by decide)).1,
    (listing_newest_first utc 1704110460000000000 twoBackups twoBackupEntries rfl (by decide)
      (by decide) (by decide)).2.1,
    (listing_newest_first utc 1704110460000000000 twoBackups twoBackupEntries rfl (by decide)
      (by decide) (by decide)).2.2.1⟩,
   (listing_newest_first utc 1704110460000000000 twoBackups twoBackupEntries rfl (by decide)
      (by decide) (by decide)).2.2.2 0 (by decide),
   by decide⟩

/-! ## Backup names as request paths -/

theorem isDigit_digit (n : Int) : isDigit (digit n) = true := by
  unfold isDigit
  rw [digit_toNat]
  have h : (n % 10).toNat < 10 := by omega
  simp only [Bool.and_eq_true, decide_eq_true_eq]
  omega

/-- The bytes of a time stamp with a four-digit year are digits and the underscore. -/
theorem formatStamp_chars (c : Civil) (hy : 0 ≤ c.year ∧ c.year ≤ 9999) (x : Char)
    (hx : x ∈ formatStamp c) : isDigit x = true ∨ x = '_' := by
  unfold formatStamp at hx
  rw [appendInt4_of_four_digits _ hy] at hx
  simp only [pad4, pad2, List.cons_append, List.nil_append, List.mem_cons,
    List.mem_singleton, List.not_mem_nil, or_false] at hx
  rcases hx with h | h | h | h | h | h | h | h | h | h | h | h | h | h | h
  all_goals first
    | (right; exact h)
    | (left; rw [h]; exact isDigit_digit _)

/-- The bytes of a backup name: those of `notes_`, of the time stamp and of `.bak`. -/
theorem backupName_chars (zone : Zone) (t : Int)
    (hy : 0 ≤ (civilOf (localSec zone t)).year ∧ (civilOf (localSec zone t)).year ≤ 9999)
    (x : Char) (hx : x ∈ backupName zone t) :
    x ∈ "notes_".toList ∨ (isDigit x = true ∨ x = '_') ∨ x ∈ ".bak".toList := by
  unfold backupName at hx
  rw [List.mem_append, List.mem_append] at hx
  rcases hx with (h | h) | h
  · left; exact h
  · right; left; exact formatStamp_chars _ hy x h
  · right; right; exact h

theorem backupName_no_slash (zone : Zone) (t : Int)
    (hy : 0 ≤ (civilOf (localSec zone t)).year ∧ (civilOf (localSec zone t)).year ≤ 9999) :
    '/' ∉ backupName zone t := by
  intro hx
  rcases backupName_chars zone t hy '/' hx with h | (h | h) | h
  · revert h; decide
  · revert h; decide
  · revert h; decide
  · revert h; decide

theorem backupName_no_dotdot (zone : Zone) (t : Int)
    (hy : 0 ≤ (civilOf (localSec zone t)).year ∧ (civilOf (localSec zone t)).year ≤ 9999) :
    Contains (backupName zone t) "..".toList = false := by
  cases hc : Contains (backupName zone t) "..".toList
  · rfl
  · exfalso
    rw [Contains_iff] at hc
    obtain ⟨u, v, huv⟩ := hc
    have hcount : (backupName zone t).count '.' = 1 := by
      have hstamp : (formatStamp (civilOf (localSec zone t))).count '.' = 0 := by
        rw [List.count_eq_zero]
        intro hmem
        rcases formatStamp_chars _ hy '.' hmem with h | h
        · revert h; decide
        · revert h; decide
      unfold backupName
      rw [List.count_append, List.count_append, hstamp]
      rfl
    rw [← huv] at hcount
    simp only [List.count_append] at hcount
    have h2 : List.count '.' "..".toList = 2 := by decide
    omega

/-- The last element of the path `/backup/<name>` is `<name>` when it has no slash. -/
theorem Base_backup_path (n : List Char) (hne : n ≠ []) (hs : '/' ∉ n) :
    Base ("/backup/".toList ++ n) = n := by
  have hrev : ("/backup/".toList ++ n).reverse = n.reverse ++ "/pukcab/".toList := by
    rw [List.reverse_append]; rfl
  have hall : ∀ c ∈ n.reverse, (c != '/') = true := by
    intro c hc
    rw [List.mem_reverse] at hc
    rw [bne_iff_ne]
    intro h
    rw [h] at hc
    exact hs hc
  have hdrop : (n.reverse ++ "/pukcab/".toList).dropWhile (fun c => c == '/')
      = n.reverse ++ "/pukcab/".toList := by
    cases hr : n.reverse with
    | nil => exact absurd (List.reverse_eq_nil_iff.mp hr) hne
    | cons c cs =>
      have hc := hall c (by rw [hr]; exact List.mem_cons_self c cs)
      rw [bne_iff_ne] at hc
      rw [List.cons_append, List.dropWhile_cons_of_neg]
      simpa using hc
  have htake : (n.reverse ++ "/pukcab/".toList).takeWhile (fun c => c != '/') = n.reverse := by
    rw [List.takeWhile_append_of_pos hall]
    have : "/pukcab/".toList.takeWhile (fun c => c != '/') = [] := by decide
    rw [this, List.append_nil]
  unfold Base
  have hnn : "/backup/".toList ++ n ≠ [] := by
    intro h
    have := congrArg List.length h
    simp at this
  rw [if_neg hnn]
  dsimp only
  rw [hrev, hdrop, List.reverse_reverse, htake, List.reverse_reverse, if_neg hne]

/-- In a directory without duplicate names, looking up the name of an entry finds it. -/
theorem find_of_nodup (l : List FileInfo) (hnd : (l.map FileInfo.name).Nodup) (e : FileInfo)
    (he : e ∈ l) : l.find? (fun x => x.name == e.name) = some e := by
  have hinj := List.inj_on_of_nodup_map hnd
  cases hf : l.find? (fun x => x.name == e.name) with
  | none =>
    rw [List.find?_eq_none] at hf
    exact absurd (by simp) (hf e he)
  | some x =>
    have hx := List.mem_of_find?_eq_some hf
    have hxn := List.find?_some hf
    have hxe : x = e := hinj hx he (by simpa using hxn)
    rw [hxe]

/-- The viewer shows the content of a backup written by a save. -/
theorem viewBackup_entry (zone : Zone) (fs : FS) (es : List FileInfo) (e : FileInfo)
    (hb : fs.backups = some es) (hnd : (es.map FileInfo.name).Nodup) (he : e ∈ es)
    (hd : e.isDir = false) (hn : e.name = backupName zone e.modTime)
    (hy : 0 ≤ (civilOf (localSec zone e.modTime)).year ∧
      (civilOf (localSec zone e.modTime)).year ≤ 9999) :
    viewBackup e.name fs = some e.content := by
  have hlen : e.name.length = 25 := by rw [hn]; exact backupName_length zone _ hy
  have hne : e.name ≠ [] := by
    intro h; rw [h] at hlen; exact absurd hlen (by decide)
  have hbase : Base ("/backup/".toList ++ e.name) = e.name :=
    Base_backup_path e.name hne (by rw [hn]; exact backupName_no_slash zone _ hy)
  have hfind : findBackup (Base ("/backup/".toList ++ e.name)) fs = some e := by
    rw [hbase]
    unfold findBackup
    rw [hb]
    exact find_of_nodup es hnd e he
  obtain ⟨d, hpage⟩ := backupHandler_page noFaults ("/backup/".toList ++ e.name) fs e rfl rfl
    (by rw [hbase, hn]; exact backupName_no_dotdot zone _ hy)
    (by rw [hbase, hn]; exact backupName_suffix zone _)
    hfind hd (by rw [hbase, hlen]; right; decide)
  unfold viewBackup
  rw [hpage]

/-! ## The catalog after a run of saves -/

theorem viewAll_entries (zone : Zone) (fs : FS) (es : List FileInfo)
    (hb : fs.backups = some es) (hnd : (es.map FileInfo.name).Nodup)
    (l : List FileInfo) (hl : ∀ e ∈ l, e ∈ es ∧ e.isDir = false ∧
      e.name = backupName zone e.modTime ∧
      (0 ≤ (civilOf (localSec zone e.modTime)).year ∧
        (civilOf (localSec zone e.modTime)).year ≤ 9999))
    (opts : List BackupOption) (ho : opts.map BackupOption.value = l.map FileInfo.name) :
    viewAll fs opts = some (l.map (fun e => (e.name, e.content))) := by
  induction l generalizing opts with
  | nil =>
    cases opts with
    | nil => rfl
    | cons o os => exact absurd ho (by simp)
  | cons e rest ih =>
    cases opts with
    | nil => exact absurd ho (by simp)
    | cons o os =>
      rw [List.map_cons, List.map_cons, List.cons.injEq] at ho
      have he := hl e (List.mem_cons_self e rest)
      have hv := viewBackup_entry zone fs es e hb hnd he.1 he.2.1 he.2.2.1 he.2.2.2
      have hrest := ih (fun x hx => hl x (List.mem_cons_of_mem e hx)) os ho.2
      unfold viewAll
      rw [ho.1, hv, hrest]
      rfl

/-- A fault-free `GET /` over an existing document leaves the state as it is. -/
theorem rootGet_state (zone : Zone) (now : Int) (d : Document)
    (backups : Option (List FileInfo)) :
    (rootGet zone noFaults now { notes := some d, backups := backups }).1
      = { notes := some d, backups := backups } := by
  unfold rootGet
  have h1 : ¬ (statNotes noFaults.statNotes
      { notes := some d, backups := backups }).isNotExist = true := by
    intro h; exact Bool.noConfusion h
  dsimp only
  rw [if_neg h1]
  have h2 : readNotes noFaults.readNotes { notes := some d, backups := backups }
      = some d.content := rfl
  rw [h2]
  dsimp only
  split
  · rfl
  · split <;> rfl

/-- The catalog of a directory of save-made backups that ascend in wall-clock time: the
entries from the last to the first, each with its content. -/
theorem catalog_of_ascending (zone : Zone) (now : Int) (d : Document)
    (es : List FileInfo) (hs : ∀ e ∈ es, SaveMade zone e)
    (hasc : es.Pairwise (fun a b => localSec zone a.modTime < localSec zone b.modTime)) :
    catalog zone now { notes := some d, backups := some es }
      = some (es.reverse.map (fun e => (e.name, e.content))) := by
  have hlt : es.Pairwise (fun a b => strLt a.name b.name = true) := by
    refine hasc.imp_of_mem ?_
    intro a b ha hb hab
    have h1 := hs a ha
    have h2 := hs b hb
    rw [h1.2.1, h2.2.1]
    exact backupName_lt zone _ _ h1.2.2 h2.2.2 hab
  have hsort : sortByName es = es := sortByName_of_sorted es hlt
  have hnd : (es.map FileInfo.name).Nodup := by
    unfold List.Nodup
    rw [List.pairwise_map]
    refine hlt.imp ?_
    intro a b hab heq
    rw [heq, strLt_irrefl] at hab
    exact Bool.noConfusion hab
  have hbak : ∀ f ∈ es.reverse, isBackupFile f = true := by
    intro f hf
    have h := hs f (List.mem_reverse.mp hf)
    unfold isBackupFile
    rw [h.1, h.2.1, backupName_suffix]
    rfl
  have hlab : ∀ f ∈ es.reverse, isBackupFile f = true → listLabel f.name ≠ none := by
    intro f hf _
    have h := hs f (List.mem_reverse.mp hf)
    rw [Ne, listLabel_eq_none_iff, h.2.1, backupName_length zone _ h.2.2]
    omega
  obtain ⟨opts, ho, hv, _⟩ := backupOptions_of_labels _ hlab
  rw [List.filter_eq_self.mpr hbak] at hv
  obtain ⟨content, lastModTime, hget⟩ :=
    rootGet_listing zone now { notes := some d, backups := some es } es opts rfl
      (by rw [hsort]; exact ho)
  have hstate := rootGet_state zone now d (some es)
  have hpair : rootGet zone noFaults now { notes := some d, backups := some es }
      = ({ notes := some d, backups := some es },
          some (.editorPage content lastModTime es.length opts)) :=
    Prod.ext hstate hget
  unfold catalog
  rw [hpair]
  dsimp only
  refine viewAll_entries zone _ es rfl hnd es.reverse ?_ opts hv
  intro e he
  have hm := List.mem_reverse.mp he
  have h := hs e hm
  exact ⟨hm, h.1, h.2.1, h.2.2⟩

/-- A fault-free save over a document and a directory of save-made backups that are at most
one hour old and from earlier wall-clock seconds adds the backup of the previous content and
removes nothing. -/
theorem rootPost_appends (zone : Zone) (t : Int) (c p : List Char) (m : Int)
    (bk : Option (List FileInfo))
    (hB : ∀ e ∈ bk.getD [], SaveMade zone e ∧ localSec zone e.modTime < localSec zone t ∧
      t - e.modTime ≤ hour)
    (hy : 0 ≤ (civilOf (localSec zone t)).year ∧ (civilOf (localSec zone t)).year ≤ 9999) :
    (rootPost zone noFaults t c false
        { notes := some { content := p, modTime := m }, backups := bk }).1
      = { notes := some { content := c, modTime := t },
          backups := some (bk.getD [] ++
            [{ name := backupName zone t, isDir := false, modTime := t, content := p }]) } := by
  have hok : ∀ e ∈ bk.getD [], e.name = backupName zone t → e.isDir = false :=
    fun e he _ => (hB e he).1.1
  have hne : ∀ e ∈ bk.getD [], (e.name != backupName zone t) = true := by
    intro e he
    have h := hB e he
    have hlt := backupName_lt zone e.modTime t h.1.2.2 hy h.2.1
    rw [← h.1.2.1] at hlt
    rw [bne_iff_ne]
    intro heq
    rw [heq, strLt_irrefl] at hlt
    exact Bool.noConfusion hlt
  rw [rootPost_existing, writeBackup_ok t _ p _ bk hok, List.filter_eq_self.mpr hne]
  have hkeep : ∀ x ∈ bk.getD [] ++
      [{ name := backupName zone t, isDir := false, modTime := t, content := p }],
      kept noFaults (t - hour) (sortByName (bk.getD [] ++
        [{ name := backupName zone t, isDir := false, modTime := t, content := p }])) x
        = true := by
    intro x _
    rw [kept_iff]
    intro f hf hrem
    exfalso
    rw [mem_sortByName, List.mem_append, List.mem_singleton] at hf
    unfold removed at hrem
    simp only [Bool.and_eq_true, decide_eq_true_eq] at hrem
    have hh : hour = 3600000000000 := rfl
    rcases hf with hf | hf
    · have := (hB f hf).2.2
      omega
    · rw [hf] at hrem
      simp only at hrem
      omega
  simp only [Option.map_some', List.filter_eq_self.mpr hkeep]

theorem expectedBackups_modTime (zone : Zone) (p : List Char) (saves : List (Int × List Char)) :
    (expectedBackups zone p saves).map FileInfo.modTime = saves.map Prod.fst := by
  induction saves generalizing p with
  | nil => rfl
  | cons s rest ih => simp only [expectedBackups, List.map_cons, ih]

theorem expectedBackups_name (zone : Zone) (p : List Char) (saves : List (Int × List Char)) :
    (expectedBackups zone p saves).map FileInfo.name
      = saves.map (fun s => backupName zone s.1) := by
  induction saves generalizing p with
  | nil => rfl
  | cons s rest ih => simp only [expectedBackups, List.map_cons, ih]

theorem expectedBackups_content (zone : Zone) (p : List Char)
    (saves : List (Int × List Char)) :
    (expectedBackups zone p saves).map FileInfo.content
      = (p :: saves.map Prod.snd).dropLast := by
  induction saves generalizing p with
  | nil => rfl
  | cons s rest ih =>
    simp only [expectedBackups, List.map_cons, ih, List.dropLast_cons₂]

theorem expectedBackups_saveMade (zone : Zone) (p : List Char)
    (saves : List (Int × List Char))
    (hS : ∀ s ∈ saves, 0 ≤ (civilOf (localSec zone s.1)).year ∧
      (civilOf (localSec zone s.1)).year ≤ 9999)
    (e : FileInfo) (he : e ∈ expectedBackups zone p saves) : SaveMade zone e := by
  induction saves generalizing p with
  | nil => exact absurd he (List.not_mem_nil e)
  | cons s rest ih =>
    unfold expectedBackups at he
    rcases List.mem_cons.mp he with h | h
    · have hs := hS s (List.mem_cons_self s rest)
      rw [h]
      exact ⟨rfl, rfl, hs⟩
    · exact ih s.2 (fun x hx => hS x (List.mem_cons_of_mem s hx)) h

/-- The state after a run of saves over a document: the backups of the run are appended to
the directory, in the order of the saves. -/
theorem saveAll_appends (zone : Zone) (saves : List (Int × List Char))
    (hne : saves ≠ []) (p : List Char) (m : Int) (bk : Option (List FileInfo))
    (hS : ∀ s ∈ saves, 0 ≤ (civilOf (localSec zone s.1)).year ∧
      (civilOf (localSec zone s.1)).year ≤ 9999)
    (hP : saves.Pairwise
      (fun a b => localSec zone a.1 < localSec zone b.1 ∧ b.1 - a.1 ≤ hour))
    (hB : ∀ e ∈ bk.getD [], SaveMade zone e ∧
      ∀ s ∈ saves, localSec zone e.modTime < localSec zone s.1 ∧ s.1 - e.modTime ≤ hour) :
    ∃ d, saveAll zone saves { notes := some { content := p, modTime := m }, backups := bk }
      = { notes := some d, backups := some (bk.getD [] ++ expectedBackups zone p saves) } := by
  induction saves generalizing p m bk with
  | nil => exact absurd rfl hne
  | cons s rest ih =>
    have hs := hS s (List.mem_cons_self s rest)
    have hstep := rootPost_appends zone s.1 s.2 p m bk
      (fun e he => ⟨(hB e he).1, (hB e he).2 s (List.mem_cons_self s rest)⟩) hs
    have hfold : saveAll zone (s :: rest)
        { notes := some { content := p, modTime := m }, backups := bk }
        = saveAll zone rest (rootPost zone noFaults s.1 s.2 false
            { notes := some { content := p, modTime := m }, backups := bk }).1 := rfl
    rw [hfold, hstep]
    by_cases hr : rest = []
    · subst hr
      exact ⟨{ content := s.2, modTime := s.1 }, rfl⟩
    · have hP' := List.pairwise_cons.mp hP
      obtain ⟨d, hd⟩ := ih hr s.2 s.1
        (some (bk.getD [] ++
          [{ name := backupName zone s.1, isDir := false, modTime := s.1, content := p }]))
        (fun x hx => hS x (List.mem_cons_of_mem s hx)) hP'.2
        (by
          intro e he
          rw [Option.getD_some, List.mem_append, List.mem_singleton] at he
          rcases he with he | he
          · exact ⟨(hB e he).1, fun x hx => (hB e he).2 x (List.mem_cons_of_mem s hx)⟩
          · rw [he]
            exact ⟨⟨rfl, rfl, hs⟩, fun x hx => hP'.1 x hx⟩)
      refine ⟨d, ?_⟩
      rw [hd, Option.getD_some, List.append_assoc]
      rfl

/-- C10: the catalog is to be newest first, as the comment on the loop of the listing says,
but where the zone offset changes it is not: in `newYork2024` the saves of `hello`, `world`
and `!!!` at 05:40:00, 05:50:00 and 06:10:00 UTC (three distinct wall-clock seconds within
half an hour, from no document and no backup directory) leave a catalog of two entries whose
front entry has the content `hello`, the older one, and not `world`. -/
theorem catalog_oldest_first_after_fall_back :
    catalog newYork2024 1730614260000000000 (saveAll newYork2024 helloWorldFallBack emptyFS)
      = some [("notes_20241103_015000.bak".toList, "hello".toList),
              ("notes_20241103_011000.bak".toList, "world".toList)] ∧
    helloWorldFallBack.map (fun s => backupName newYork2024 s.1)
      = ["notes_20241103_014000.bak".toList, "notes_20241103_015000.bak".toList,
         "notes_20241103_011000.bak".toList] ∧
    helloWorldFallBack.map (fun s => unixSec s.1)
      = [1730612400, 1730613000, 1730614200] := by
  decide

/-- Where the year gets a fifth digit the name order is not the order of time either: the
backup written in the year 10000 sorts before the one written in the year 9999. -/
theorem catalog_across_year_10000 :
    catalog utc 253402300820000000000 (saveAll utc helloWorldYear10000 emptyFS)
      = some [("notes_99991231_235950.bak".toList, "hello".toList),
              ("notes_100000101_000010.bak".toList, "world".toList)] := by
  decide

/-- Where the catalog is newest first.  Starting from no document and an empty backup storage
(no directory, or a directory without entries), after `k ≥ 1` saves made at ascending
wall-clock seconds within one hour, in four-digit years, the catalog has exactly `k - 1`
entries, listed newest first: the names are those of the saves `k, ..., 2` and the contents
are those of the saves `k - 1, ..., 1`. -/
theorem catalog_after_saves (zone : Zone) (now : Int) (fs : FS)
    (saves : List (Int × List Char)) (hne : saves ≠ [])
    (hdoc : fs.notes = none) (hempty : fs.backups.getD [] = [])
    (hyear : ∀ s ∈ saves, 0 ≤ (civilOf (localSec zone s.1)).year ∧
      (civilOf (localSec zone s.1)).year ≤ 9999)
    (hsec : saves.Pairwise (fun a b => localSec zone a.1 < localSec zone b.1))
    (hhour : ∀ a ∈ saves, ∀ b ∈ saves, b.1 - a.1 ≤ hour) :
    ∃ cat, catalog zone now (saveAll zone saves fs) = some cat ∧
      cat.length = saves.length - 1 ∧
      cat.map Prod.snd = ((saves.map Prod.snd).dropLast).reverse ∧
      cat.map Prod.fst = (saves.tail.map (fun s => backupName zone s.1)).reverse := by
  cases fs with
  | mk notes bk =>
  simp only at hdoc hempty
  subst hdoc
  cases saves with
  | nil => exact absurd rfl hne
  | cons s rest =>
    have hfold : saveAll zone (s :: rest) { notes := none, backups := bk }
        = saveAll zone rest { notes := some { content := s.2, modTime := s.1 },
                              backups := bk } := by
      show saveAll zone rest (rootPost zone noFaults s.1 s.2 false
        { notes := none, backups := bk }).1 = _
      rw [rootPost_absent]
    rw [hfold]
    by_cases hr : rest = []
    · subst hr
      cases bk with
      | none => exact ⟨[], rfl, rfl, rfl, rfl⟩
      | some l =>
        rw [Option.getD_some] at hempty
        subst hempty
        exact ⟨[], rfl, rfl, rfl, rfl⟩
    · have hS : ∀ x ∈ rest, 0 ≤ (civilOf (localSec zone x.1)).year ∧
          (civilOf (localSec zone x.1)).year ≤ 9999 :=
        fun x hx => hyear x (List.mem_cons_of_mem s hx)
      have hsec' := (List.pairwise_cons.mp hsec).2
      have hP : rest.Pairwise
          (fun a b => localSec zone a.1 < localSec zone b.1 ∧ b.1 - a.1 ≤ hour) := by
        refine hsec'.imp_of_mem ?_
        intro a b ha hb hab
        exact ⟨hab, hhour a (List.mem_cons_of_mem s ha) b (List.mem_cons_of_mem s hb)⟩
      obtain ⟨d, hd⟩ := saveAll_appends zone rest hr s.2 s.1 bk hS hP
        (fun e he => by rw [hempty] at he; exact absurd he (List.not_mem_nil e))
      rw [hd, hempty, List.nil_append]
      have hasc : (expectedBackups zone s.2 rest).Pairwise
          (fun a b => localSec zone a.modTime < localSec zone b.modTime) := by
        have h1 : ((expectedBackups zone s.2 rest).map FileInfo.modTime).Pairwise
            (fun a b => localSec zone a < localSec zone b) := by
          rw [expectedBackups_modTime, List.pairwise_map]
          exact hsec'
        exact (List.pairwise_map (f := FileInfo.modTime)
          (R := fun a b => localSec zone a < localSec zone b)).mp h1
      rw [catalog_of_ascending zone now d _
        (expectedBackups_saveMade zone s.2 rest hS) hasc]
      refine ⟨_, rfl, ?_, ?_, ?_⟩
      · have := congrArg List.length (expectedBackups_modTime zone s.2 rest)
        simp only [List.length_map, List.length_reverse, List.length_cons] at this ⊢
        omega
      · rw [List.map_map]
        have : (Prod.snd ∘ fun e : FileInfo => (e.name, e.content)) = FileInfo.content := rfl
        rw [this, List.map_reverse, expectedBackups_content]
        rfl
      · rw [List.map_map]
        have : (Prod.fst ∘ fun e : FileInfo => (e.name, e.content)) = FileInfo.name := rfl
        rw [this, List.map_reverse, expectedBackups_name]
        rfl

/-- The scenario of the spec in UTC: after `hello` the catalog is empty, after `world` it has
one entry with content `hello`, after `!!!` it has two entries with `world` in front. -/
theorem catalog_after_saves_witness :
    (∃ cat, catalog utc 1704110460000000000 (saveAll utc helloWorld emptyFS) = some cat ∧
      cat.length = helloWorld.length - 1 ∧
      cat.map Prod.snd = ((helloWorld.map Prod.snd).dropLast).reverse ∧
      cat.map Prod.fst = (helloWorld.tail.map (fun s => backupName utc s.1)).reverse) ∧
    catalog utc 1704110460000000000 (saveAll utc (helloWorld.take 1) emptyFS) = some [] ∧
    catalog utc 1704110460000000000 (saveAll utc (helloWorld.take 2) emptyFS)
      = some [("notes_20240101_120005.bak".toList, "hello".toList)] ∧
    catalog utc 1704110460000000000 (saveAll utc helloWorld emptyFS)
      = some [("notes_20240101_120009.bak".toList, "world".toList),
              ("notes_20240101_120005.bak".toList, "hello".toList)] :=
  ⟨catalog_after_saves utc 1704110460000000000 emptyFS helloWorld (by decide) rfl rfl
      (by decide) (by decide) (by decide),
   by decide, by decide, by decide⟩

end NotesEditor
